import Mathlib

/-!
Verification of the orchestration core of `auto_claude_code` (the `vibe`
package): the file-backed task queue (`src/vibe/task.py`), the worker loop
(`src/vibe/worker.py`), the stream-json parser (`src/vibe/manager.py`) and
the approval gate (`src/vibe/approval.py`), shallowly embedded in Lean.

Strings are modelled as `List Char`; the filesystem directories of the
queue are modelled as association lists from file names to file contents.
-/

namespace Vibe

/-- Character-list strings: the model of Python `str` values. -/
abbrev Str := List Char

/-- Conversion from Lean string literals to the `Str` model. -/
def str (s : String) : Str := s.data

/-- Python whitespace (the character class `\s` of the `re` module and the
default set stripped by `str.strip()`): ASCII space, `\t\n\v\f\r`,
the C1 separators, and the Unicode space characters. -/
def isWsCh (c : Char) : Bool :=
  c.toNat = 32 || (9 ≤ c.toNat && c.toNat ≤ 13) || (28 ≤ c.toNat && c.toNat ≤ 31) ||
  c.toNat = 0x85 || c.toNat = 0xa0 || c.toNat = 0x1680 ||
  (0x2000 ≤ c.toNat && c.toNat ≤ 0x200a) || c.toNat = 0x2028 || c.toNat = 0x2029 ||
  c.toNat = 0x202f || c.toNat = 0x205f || c.toNat = 0x3000

/-- ASCII decimal digit (the character class `\d` restricted to what
`int()` accepts in the captured group: `0`-`9`). -/
def isDigCh (c : Char) : Bool := 48 ≤ c.toNat && c.toNat ≤ 57

/-- Numeric value of a decimal digit string, most significant digit first:
the model of Python `int(s)` on a digit-only string. -/
def digitsVal (ds : Str) : Nat := ds.foldl (fun a c => a * 10 + (c.toNat - 48)) 0

/-- Decimal digit character for a value `d < 10`. -/
def digCh (d : Nat) : Char := Char.ofNat (48 + d)

/-- Fuel-driven accumulator rendering of a natural number in decimal,
most significant digit first; the model of Python `str(n)` / f-string
interpolation of an `int`. -/
def natDigitsAux : Nat → Nat → Str → Str
  | 0, n, acc => digCh (n % 10) :: acc
  | fuel + 1, n, acc =>
      if n < 10 then digCh n :: acc
      else natDigitsAux fuel (n / 10) (digCh (n % 10) :: acc)

/-- Decimal rendering of a natural number (Python `str(n)` for `n ≥ 0`). -/
def natDigits (n : Nat) : Str := natDigitsAux n n []

/-- UTF-8 byte size of one character (what contributes to `st_size`). -/
def utf8Sz (c : Char) : Nat :=
  if c.toNat < 0x80 then 1
  else if c.toNat < 0x800 then 2
  else if c.toNat < 0x10000 then 3
  else 4

/-- UTF-8 byte size of a string: the model of `Path.stat().st_size` for a
text file with this content. -/
def utf8Size (s : Str) : Nat := (s.map utf8Sz).sum

section DigitLemmas

theorem digCh_toNat (d : Nat) (hd : d < 10) : (digCh d).toNat = 48 + d := by
  interval_cases d <;> decide

theorem isDigCh_digCh (d : Nat) (hd : d < 10) : isDigCh (digCh d) = true := by
  interval_cases d <;> decide

/-- Value of `digitsVal` from an arbitrary accumulator. -/
def digitsCombine : Nat → Nat → Nat
  | a, n =>
    if _ : n < 10 then a * 10 + n
    else digitsCombine a (n / 10) * 10 + n % 10
  termination_by a n => n
  decreasing_by exact Nat.div_lt_self (by omega) (by omega)

theorem digitsCombine_self (n : Nat) : digitsCombine 0 n = n := by
  induction n using Nat.strong_induction_on with
  | _ n ih =>
    rw [digitsCombine]
    by_cases h : n < 10
    · simp [h]
    · have hlt : n / 10 < n := Nat.div_lt_self (by omega) (by omega)
      simp only [h, dite_false]
      rw [ih (n / 10) hlt]
      omega

theorem natDigitsAux_foldl (fuel : Nat) :
    ∀ n acc a, n ≤ fuel →
      List.foldl (fun a c => a * 10 + (c.toNat - 48)) a (natDigitsAux fuel n acc) =
      List.foldl (fun a c => a * 10 + (c.toNat - 48)) (digitsCombine a n) acc := by
  induction fuel with
  | zero =>
    intro n acc a hn
    have hn0 : n = 0 := Nat.le_zero.mp hn
    subst hn0
    simp [natDigitsAux, digitsCombine, digCh_toNat 0 (by omega)]
  | succ fuel ih =>
    intro n acc a hn
    rw [natDigitsAux]
    by_cases h : n < 10
    · rw [digitsCombine]
      simp [h, digCh_toNat n h]
    · have h1 : n / 10 ≤ fuel := by
        have := Nat.div_lt_self (show 0 < n by omega) (show 1 < 10 by omega)
        omega
      simp only [h, if_false]
      rw [ih (n / 10) _ a h1]
      have hcomb : digitsCombine a n = digitsCombine a (n / 10) * 10 + n % 10 := by
        rw [digitsCombine, dif_neg h]
      rw [hcomb]
      simp only [List.foldl_cons]
      congr 1
      rw [digCh_toNat (n % 10) (Nat.mod_lt n (by omega))]
      omega

/-- Decimal round trip: parsing the rendering of `n` gives back `n`. -/
theorem digitsVal_natDigits (n : Nat) : digitsVal (natDigits n) = n := by
  unfold digitsVal natDigits
  rw [natDigitsAux_foldl n n [] 0 (Nat.le_refl n)]
  exact digitsCombine_self n

theorem natDigitsAux_digits (fuel : Nat) :
    ∀ n acc, n ≤ fuel → (∀ c ∈ acc, isDigCh c = true) →
      ∀ c ∈ natDigitsAux fuel n acc, isDigCh c = true := by
  induction fuel with
  | zero =>
    intro n acc hn hacc c hc
    have hn0 : n = 0 := Nat.le_zero.mp hn
    subst hn0
    simp only [natDigitsAux] at hc
    rcases List.mem_cons.mp hc with h | h
    · subst h; exact isDigCh_digCh 0 (by omega)
    · exact hacc c h
  | succ fuel ih =>
    intro n acc hn hacc c hc
    rw [natDigitsAux] at hc
    by_cases h : n < 10
    · simp only [h, if_true] at hc
      rcases List.mem_cons.mp hc with h2 | h2
      · subst h2; exact isDigCh_digCh n h
      · exact hacc c h2
    · simp only [h, if_false] at hc
      have h1 : n / 10 ≤ fuel := by
        have := Nat.div_lt_self (show 0 < n by omega) (show 1 < 10 by omega)
        omega
      refine ih (n / 10) _ h1 ?_ c hc
      intro c hc2
      rcases List.mem_cons.mp hc2 with h2 | h2
      · subst h2; exact isDigCh_digCh (n % 10) (Nat.mod_lt n (by omega))
      · exact hacc c h2

theorem natDigits_digits (n : Nat) : ∀ c ∈ natDigits n, isDigCh c = true :=
  natDigitsAux_digits n n [] (Nat.le_refl n) (by intro c hc; cases hc)

theorem natDigitsAux_ne_nil (fuel n : Nat) (acc : Str) : natDigitsAux fuel n acc ≠ [] := by
  cases fuel with
  | zero => simp [natDigitsAux]
  | succ fuel =>
    rw [natDigitsAux]
    by_cases h : n < 10
    · simp [h]
    · simp only [h, if_false]
      exact natDigitsAux_ne_nil fuel (n / 10) _

theorem natDigits_ne_nil (n : Nat) : natDigits n ≠ [] := natDigitsAux_ne_nil n n []

theorem isWsCh_ne_lt {c : Char} (h : isWsCh c = true) : c ≠ '<' := by
  intro hc; subst hc; simp [isWsCh] at h

theorem isDigCh_ne_lt {c : Char} (h : isDigCh c = true) : c ≠ '<' := by
  intro hc; subst hc; simp [isDigCh] at h

theorem isDigCh_not_ws {c : Char} (h : isDigCh c = true) : isWsCh c = false := by
  simp only [isDigCh, Bool.and_eq_true, decide_eq_true_eq] at h
  simp only [isWsCh, Bool.or_eq_false_iff, Bool.and_eq_false_iff,
    decide_eq_false_iff_not]
  omega

end DigitLemmas

/-! ## The retry-marker pattern

`task.py` line 16: `_RETRY_PATTERN = re.compile(r"<!--\s*RETRY:\s*(\d+)\s*-->")`.
The pattern has no backtracking ambiguity (the whitespace, digit and literal
character classes are pairwise disjoint at every boundary), so a greedy
single-pass matcher is an exact model of the `re` engine on it. -/

/-- Match a literal string at the head of the input, returning the rest. -/
def litM : Str → Str → Option Str
  | [], xs => some xs
  | _, [] => none
  | p :: ps, x :: xs => if x = p then litM ps xs else none

/-- Greedily drop leading whitespace (`\s*`). -/
def wsSkip : Str → Str
  | [] => []
  | x :: xs => if isWsCh x then wsSkip xs else x :: xs

/-- Greedily take leading decimal digits (`\d+` capture, with the rest). -/
def digSpan : Str → Str × Str
  | [] => ([], [])
  | x :: xs =>
      if isDigCh x then
        ((digSpan xs).1.cons x, (digSpan xs).2)
      else ([], x :: xs)

/-- Try to match `_RETRY_PATTERN` starting exactly at the head of `xs`;
on success return the captured retry count and the input after the match. -/
def matchRetryAt (xs : Str) : Option (Nat × Str) :=
  match litM (str "<!--") xs with
  | none => none
  | some x1 =>
    match litM (str "RETRY:") (wsSkip x1) with
    | none => none
    | some x3 =>
      match digSpan (wsSkip x3) with
      | ([], _) => none
      | (d :: ds, x5) =>
        match litM (str "-->") (wsSkip x5) with
        | none => none
        | some x7 => some (digitsVal (d :: ds), x7)

/-- Leftmost match of `_RETRY_PATTERN`: the model of
`_RETRY_PATTERN.search(content)`, returning the captured count. -/
def searchRetry : Str → Option Nat
  | [] => none
  | x :: xs =>
    match matchRetryAt (x :: xs) with
    | some (v, _) => some v
    | none => searchRetry xs

/-- Replace every non-overlapping leftmost match of `_RETRY_PATTERN` by
`rep`, scanning left to right (the model of `_RETRY_PATTERN.sub(rep, s)`);
`fuel` only drives termination and is irrelevant once `≥ length`. -/
def subRetryF (rep : Str) : Nat → Str → Str
  | 0, xs => xs
  | _ + 1, [] => []
  | fuel + 1, x :: xs =>
    match matchRetryAt (x :: xs) with
    | some (_, r) => rep ++ subRetryF rep fuel r
    | none => x :: subRetryF rep fuel xs

/-- `_RETRY_PATTERN.sub(rep, s)`. -/
def subRetry (rep : Str) (s : Str) : Str := subRetryF rep s.length s

/-- The marker string `f"<!-- RETRY: {count} -->"` (task.py line 247). -/
def markerStr (n : Nat) : Str := str "<!-- RETRY: " ++ natDigits n ++ str " -->"

/-- `_extract_retry_count` (task.py lines 239-242): the captured count of
the first marker, or 0 when there is no marker. -/
def extractRetryCount (content : Str) : Nat :=
  match searchRetry content with
  | some v => v
  | none => 0

/-- `_set_retry_count` (task.py lines 245-251): replace existing markers,
else prepend a marker line. -/
def setRetryCount (content : Str) (count : Nat) : Str :=
  if (searchRetry content).isSome then subRetry (markerStr count) content
  else markerStr count ++ '\n' :: content

section CodecLemmas

theorem isWsCh_not_dig {c : Char} (h : isWsCh c = true) : isDigCh c = false := by
  cases hd : isDigCh c
  · rfl
  · exact absurd (isDigCh_not_ws hd) (by simp [h])

theorem litM_eq_some : ∀ {p xs r : Str}, litM p xs = some r ↔ xs = p ++ r := by
  intro p
  induction p with
  | nil => intro xs r; simp [litM]
  | cons a ps ih =>
    intro xs r
    cases xs with
    | nil => simp [litM]
    | cons x xs =>
      by_cases hx : x = a
      · subst hx
        simp [litM, ih]
      · simp [litM, hx, Ne.symm hx]

theorem wsSkip_decomp (xs : Str) :
    ∃ w, xs = w ++ wsSkip xs ∧ ∀ c ∈ w, isWsCh c = true := by
  induction xs with
  | nil => exact ⟨[], rfl, by intro c hc; cases hc⟩
  | cons x xs ih =>
    by_cases hx : isWsCh x
    · obtain ⟨w, hw, hall⟩ := ih
      refine ⟨x :: w, ?_, ?_⟩
      · simp [wsSkip, hx]
        exact hw
      · intro c hc
        rcases List.mem_cons.mp hc with h | h
        · subst h; exact hx
        · exact hall c h
    · refine ⟨[], ?_, by intro c hc; cases hc⟩
      simp [wsSkip, hx]

theorem wsSkip_append {w : Str} (z : Str) (h : ∀ c ∈ w, isWsCh c = true) :
    wsSkip (w ++ z) = wsSkip z := by
  induction w with
  | nil => rfl
  | cons a w ih =>
    have ha : isWsCh a = true := h a (by simp)
    simp only [List.cons_append, wsSkip, ha, if_true]
    exact ih (fun c hc => h c (by simp [hc]))

theorem wsSkip_cons_neg {x : Char} (z : Str) (h : isWsCh x = false) :
    wsSkip (x :: z) = x :: z := by
  simp [wsSkip, h]

theorem digSpan_decomp (xs : Str) :
    xs = (digSpan xs).1 ++ (digSpan xs).2 ∧ (∀ c ∈ (digSpan xs).1, isDigCh c = true) := by
  induction xs with
  | nil => exact ⟨rfl, by intro c hc; cases hc⟩
  | cons x xs ih =>
    by_cases hx : isDigCh x
    · obtain ⟨hw, hall⟩ := ih
      constructor
      · simp only [digSpan, hx, if_true, List.cons_append]
        exact congrArg (x :: ·) hw
      · intro c hc
        simp only [digSpan, hx, if_true, List.cons] at hc
        rcases List.mem_cons.mp hc with h | h
        · subst h; exact hx
        · exact hall c h
    · constructor
      · simp [digSpan, hx]
      · intro c hc
        simp [digSpan, hx] at hc

theorem digSpan_append {d : Str} (z : Str) (hd : ∀ c ∈ d, isDigCh c = true)
    (hz : ∀ y ∈ z.head?, isDigCh y = false) : digSpan (d ++ z) = (d, z) := by
  induction d with
  | nil =>
    cases z with
    | nil => rfl
    | cons y ys =>
      have : isDigCh y = false := hz y (by simp)
      simp [digSpan, this]
  | cons a d ih =>
    have ha : isDigCh a = true := hd a (by simp)
    have := ih (fun c hc => hd c (by simp [hc]))
    simp [digSpan, ha, this]

/-- Decomposition of a span matched by `_RETRY_PATTERN`, capturing `v`. -/
def MatchSpan (q : Str) (v : Nat) : Prop :=
  ∃ w1 w2 d w3, q = str "<!--" ++ w1 ++ str "RETRY:" ++ w2 ++ d ++ w3 ++ str "-->" ∧
    (∀ c ∈ w1, isWsCh c = true) ∧ (∀ c ∈ w2, isWsCh c = true) ∧
    (∀ c ∈ w3, isWsCh c = true) ∧
    d ≠ [] ∧ (∀ c ∈ d, isDigCh c = true) ∧ digitsVal d = v

theorem matchRetryAt_some_decomp {xs : Str} {v : Nat} {r : Str}
    (h : matchRetryAt xs = some (v, r)) : ∃ q, xs = q ++ r ∧ MatchSpan q v := by
  unfold matchRetryAt at h
  split at h
  · cases h
  rename_i x1 h1
  split at h
  · cases h
  rename_i x3 h3
  split at h
  · cases h
  rename_i d0 ds x5 h5
  split at h
  · cases h
  rename_i x7 h7
  injection h with h
  injection h with hv hr
  obtain ⟨w1, hw1, hall1⟩ := wsSkip_decomp x1
  obtain ⟨w2, hw2, hall2⟩ := wsSkip_decomp x3
  obtain ⟨w3, hw3, hall3⟩ := wsSkip_decomp x5
  have hx1 : xs = str "<!--" ++ x1 := litM_eq_some.mp h1
  have hx3 : wsSkip x1 = str "RETRY:" ++ x3 := litM_eq_some.mp h3
  have hdd := digSpan_decomp (wsSkip x3)
  rw [h5] at hdd
  have hx5 : wsSkip x3 = (d0 :: ds) ++ x5 := hdd.1
  have hx7 : wsSkip x5 = str "-->" ++ x7 := litM_eq_some.mp h7
  refine ⟨str "<!--" ++ w1 ++ str "RETRY:" ++ w2 ++ (d0 :: ds) ++ w3 ++ str "-->",
    ?_, w1, w2, d0 :: ds, w3, rfl, hall1, hall2, hall3, by simp, hdd.2, hv⟩
  subst hr
  rw [hx1, hw1, hx3, hw2, hx5, hw3, hx7]
  simp [List.append_assoc]

theorem matchSpan_matches {q : Str} {v : Nat} (hq : MatchSpan q v) :
    ∀ z, matchRetryAt (q ++ z) = some (v, z) := by
  obtain ⟨w1, w2, d, w3, hq, hall1, hall2, hall3, hd0, halld, hval⟩ := hq
  intro z
  subst hq
  cases d with
  | nil => exact absurd rfl hd0
  | cons d0 ds =>
  have e1 : litM (str "<!--")
      ((str "<!--" ++ w1 ++ str "RETRY:" ++ w2 ++ (d0 :: ds) ++ w3 ++ str "-->") ++ z) =
      some (w1 ++ (str "RETRY:" ++ (w2 ++ ((d0 :: ds) ++ (w3 ++ (str "-->" ++ z)))))) := by
    apply litM_eq_some.mpr
    simp [List.append_assoc]
  have e2 : wsSkip (w1 ++ (str "RETRY:" ++ (w2 ++ ((d0 :: ds) ++ (w3 ++ (str "-->" ++ z)))))) =
      str "RETRY:" ++ (w2 ++ ((d0 :: ds) ++ (w3 ++ (str "-->" ++ z)))) := by
    rw [wsSkip_append _ hall1]
    exact wsSkip_cons_neg _ (by decide)
  have e3 : litM (str "RETRY:")
      (str "RETRY:" ++ (w2 ++ ((d0 :: ds) ++ (w3 ++ (str "-->" ++ z))))) =
      some (w2 ++ ((d0 :: ds) ++ (w3 ++ (str "-->" ++ z)))) := litM_eq_some.mpr rfl
  have e4 : wsSkip (w2 ++ ((d0 :: ds) ++ (w3 ++ (str "-->" ++ z)))) =
      (d0 :: ds) ++ (w3 ++ (str "-->" ++ z)) := by
    rw [wsSkip_append _ hall2]
    exact wsSkip_cons_neg _ (isDigCh_not_ws (halld d0 (by simp)))
  have e5 : digSpan ((d0 :: ds) ++ (w3 ++ (str "-->" ++ z))) =
      (d0 :: ds, w3 ++ (str "-->" ++ z)) := by
    apply digSpan_append _ halld
    intro y hy
    cases w3 with
    | nil =>
      simp only [List.nil_append, str, List.cons_append, List.head?_cons,
        Option.mem_def, Option.some_inj] at hy
      subst hy
      decide
    | cons a w3' =>
      simp only [List.cons_append, List.head?_cons, Option.mem_def, Option.some_inj] at hy
      subst hy
      exact isWsCh_not_dig (hall3 a (by simp))
  have e6 : wsSkip (w3 ++ (str "-->" ++ z)) = str "-->" ++ z := by
    rw [wsSkip_append _ hall3]
    exact wsSkip_cons_neg _ (by decide)
  have e7 : litM (str "-->") (str "-->" ++ z) = some z := litM_eq_some.mpr rfl
  simp only [matchRetryAt, e1, e2, e3, e4, e5, e6, e7, hval]

theorem matchSpan_head {q : Str} {v : Nat} (hq : MatchSpan q v) :
    ∃ q', q = '<' :: q' ∧ '<' ∉ q' := by
  obtain ⟨w1, w2, d, w3, hq, hall1, hall2, hall3, _, halld, _⟩ := hq
  subst hq
  refine ⟨str "!--" ++ w1 ++ str "RETRY:" ++ w2 ++ d ++ w3 ++ str "-->", by simp [str], ?_⟩
  intro hmem
  simp only [List.mem_append] at hmem
  rcases hmem with ((((((h | h) | h) | h) | h) | h) | h)
  · simp [str] at h
  · exact absurd rfl (isWsCh_ne_lt (hall1 '<' h))
  · simp [str] at h
  · exact absurd rfl (isWsCh_ne_lt (hall2 '<' h))
  · exact absurd rfl (isDigCh_ne_lt (halld '<' h))
  · exact absurd rfl (isWsCh_ne_lt (hall3 '<' h))
  · simp [str] at h

theorem matchRetryAt_head {xs : Str} {v : Nat} {r : Str}
    (h : matchRetryAt xs = some (v, r)) : ∃ t, xs = '<' :: t := by
  obtain ⟨q, hxs, hspan⟩ := matchRetryAt_some_decomp h
  obtain ⟨q', hq, _⟩ := matchSpan_head hspan
  exact ⟨q' ++ r, by rw [hxs, hq]; rfl⟩

theorem matchRetryAt_shrink {xs : Str} {v : Nat} {r : Str}
    (h : matchRetryAt xs = some (v, r)) : r.length < xs.length := by
  obtain ⟨q, hxs, hspan⟩ := matchRetryAt_some_decomp h
  obtain ⟨q', hq, _⟩ := matchSpan_head hspan
  rw [hxs, hq]
  simp only [List.cons_append, List.length_cons, List.length_append]
  omega

theorem matchRetryAt_nil : matchRetryAt [] = none := rfl

theorem searchRetry_of_matchAt {xs : Str} {v : Nat} {r : Str}
    (h : matchRetryAt xs = some (v, r)) : searchRetry xs = some v := by
  cases xs with
  | nil => rw [matchRetryAt_nil] at h; cases h
  | cons x t => simp only [searchRetry, h]

/-- Rewriting the input beyond a point where a match starts cannot create a
match at the head where there was none: the pattern contains `<` only at
its first character, so a matcher that failed before the rewrite point
still fails, and one that would cross into the rewritten tail is blocked. -/
theorem matchRetryAt_rewrite_none {p t' u' : Str}
    (hpt : matchRetryAt (p ++ t') = none)
    (ht : (matchRetryAt t').isSome)
    (hu : (matchRetryAt u').isSome) :
    matchRetryAt (p ++ u') = none := by
  cases hm : matchRetryAt (p ++ u') with
  | none => rfl
  | some vr =>
    obtain ⟨v, r⟩ := vr
    exfalso
    obtain ⟨q, hsplit, hspan⟩ := matchRetryAt_some_decomp hm
    have hq_pre : q <+: p ++ u' := ⟨r, hsplit.symm⟩
    have hp_pre : p <+: p ++ u' := ⟨u', rfl⟩
    rcases List.prefix_or_prefix_of_prefix hq_pre hp_pre with hqp | hpq
    · obtain ⟨p2, hp2⟩ := hqp
      have : matchRetryAt (p ++ t') = some (v, p2 ++ t') := by
        rw [← hp2, List.append_assoc]
        exact matchSpan_matches hspan _
      rw [this] at hpt
      cases hpt
    · obtain ⟨q2, hq2⟩ := hpq
      cases q2 with
      | nil =>
        have hqp : q = p := by rw [← hq2]; simp
        have : matchRetryAt (p ++ t') = some (v, t') := by
          rw [← hqp]
          exact matchSpan_matches hspan _
        rw [this] at hpt
        cases hpt
      | cons y q2' =>
        have hu' : u' = y :: q2' ++ r := by
          have h1 : p ++ u' = p ++ (y :: q2' ++ r) := by
            rw [hsplit, ← hq2]
            simp [List.append_assoc]
          exact List.append_cancel_left h1
        obtain ⟨vu, humatch⟩ := Option.isSome_iff_exists.mp hu
        obtain ⟨tu, htu⟩ := matchRetryAt_head (by rw [humatch] :
          matchRetryAt u' = some (vu.1, vu.2))
        have hy : y = '<' := by
          rw [hu'] at htu
          exact (List.cons.injEq _ _ _ _ ▸ htu).1.symm ▸ rfl
        obtain ⟨q'', hqhead, hnolt⟩ := matchSpan_head hspan
        cases p with
        | nil =>
          simp only [List.nil_append] at hpt
          rw [hpt] at ht
          cases ht
        | cons a p'' =>
          have hq' : q = a :: (p'' ++ y :: q2') := by
            rw [← hq2]
            rfl
          rw [hqhead] at hq'
          have ha : '<' = a := (List.cons.injEq _ _ _ _ ▸ hq').1
          have hq'' : q'' = p'' ++ y :: q2' := (List.cons.injEq _ _ _ _ ▸ hq').2
          apply hnolt
          rw [hq'', hy]
          simp

/-- The output of the substitution scan either equals the input or shares a
prefix with it up to a point where both the input and the output have a
match of the pattern. -/
theorem subRetryF_agree (rep : Str) (n : Nat)
    (hrep : ∀ z, matchRetryAt (rep ++ z) = some (n, z)) :
    ∀ fuel t, t.length ≤ fuel →
      subRetryF rep fuel t = t ∨
      ∃ p t' u', t = p ++ t' ∧ subRetryF rep fuel t = p ++ u' ∧
        (matchRetryAt t').isSome ∧ (matchRetryAt u').isSome := by
  intro fuel
  induction fuel with
  | zero =>
    intro t _
    left
    rfl
  | succ fuel ih =>
    intro t ht
    cases t with
    | nil => left; rfl
    | cons x xs =>
      cases hm : matchRetryAt (x :: xs) with
      | some vr =>
        obtain ⟨v, r⟩ := vr
        right
        refine ⟨[], x :: xs, rep ++ subRetryF rep fuel r, rfl, ?_, by simp [hm], ?_⟩
        · simp only [subRetryF, hm, List.nil_append]
        · rw [hrep]
          simp
      | none =>
        have hxs : xs.length ≤ fuel := by
          simp only [List.length_cons] at ht
          omega
        rcases ih xs hxs with heq | ⟨p, t', u', h1, h2, h3, h4⟩
        · left
          simp only [subRetryF, hm, heq]
        · right
          refine ⟨x :: p, t', u', by simp [h1], ?_, h3, h4⟩
          simp only [subRetryF, hm, h2, List.cons_append]

/-- If the input contains a match, the output of the substitution contains
as its leftmost match a copy of the replacement. -/
theorem searchRetry_subRetryF (rep : Str) (n : Nat)
    (hrep : ∀ z, matchRetryAt (rep ++ z) = some (n, z)) :
    ∀ fuel xs, xs.length ≤ fuel → (searchRetry xs).isSome →
      searchRetry (subRetryF rep fuel xs) = some n := by
  intro fuel
  induction fuel with
  | zero =>
    intro xs hlen hsome
    have hnil : xs = [] := List.length_eq_zero.mp (Nat.le_zero.mp hlen)
    subst hnil
    cases hsome
  | succ fuel ih =>
    intro xs hlen hsome
    cases xs with
    | nil => cases hsome
    | cons x t =>
      cases hm : matchRetryAt (x :: t) with
      | some vr =>
        obtain ⟨v, r⟩ := vr
        have hsub : subRetryF rep (fuel + 1) (x :: t) = rep ++ subRetryF rep fuel r := by
          simp only [subRetryF, hm]
        rw [hsub]
        exact searchRetry_of_matchAt (hrep _)
      | none =>
        have hsub : subRetryF rep (fuel + 1) (x :: t) = x :: subRetryF rep fuel t := by
          simp only [subRetryF, hm]
        rw [hsub]
        have hlt : t.length ≤ fuel := by
          simp only [List.length_cons] at hlen
          omega
        have hnone : matchRetryAt (x :: subRetryF rep fuel t) = none := by
          rcases subRetryF_agree rep n hrep fuel t hlt with heq | ⟨p, t', u', h1, h2, h3, h4⟩
          · rw [heq]
            exact hm
          · rw [h2, show x :: (p ++ u') = (x :: p) ++ u' from rfl]
            apply matchRetryAt_rewrite_none _ h3 h4
            rw [show (x :: p) ++ t' = x :: (p ++ t') from rfl, ← h1]
            exact hm
        simp only [searchRetry, hnone]
        apply ih _ hlt
        have hstep : searchRetry (x :: t) = searchRetry t := by
          simp only [searchRetry, hm]
        rw [hstep] at hsome
        exact hsome

/-- The marker written by `_set_retry_count` is itself a full match of
`_RETRY_PATTERN`, capturing exactly `n`. -/
theorem markerSpan (n : Nat) : MatchSpan (markerStr n) n := by
  refine ⟨[' '], [' '], natDigits n, [' '], ?_, by decide, by decide, by decide,
    natDigits_ne_nil n, natDigits_digits n, digitsVal_natDigits n⟩
  simp [markerStr, str]

theorem markerStr_matches (n : Nat) : ∀ z, matchRetryAt (markerStr n ++ z) = some (n, z) :=
  matchSpan_matches (markerSpan n)

/-- After `_set_retry_count(content, n)`, the leftmost marker captures `n`,
for every content. -/
theorem searchRetry_setRetryCount (c : Str) (n : Nat) :
    searchRetry (setRetryCount c n) = some n := by
  unfold setRetryCount
  by_cases h : (searchRetry c).isSome = true
  · simp only [h, if_true]
    exact searchRetry_subRetryF (markerStr n) n (markerStr_matches n) c.length c
      (Nat.le_refl _) h
  · simp only [h, if_false]
    rw [show markerStr n ++ '\n' :: c = markerStr n ++ ('\n' :: c) from rfl]
    exact searchRetry_of_matchAt (markerStr_matches n ('\n' :: c))

end CodecLemmas

/-! ## Filesystem and task-queue model

The three directories of the queue (`tasks/`, `tasks/done/`,
`tasks/failed/`) are association lists from file names to file contents.
`os.rename` within `tasks/` and the cross-directory moves are modelled as
erase+insert; `threading.Lock` around scan+rename makes the queue
operations sequential, which is what a pure state-passing function is. -/

/-- A directory: file names mapped to contents. -/
abbrev Dir := List (Str × Str)

def lookupD (d : Dir) (name : Str) : Option Str :=
  match d with
  | [] => none
  | (k, v) :: rest => if k = name then some v else lookupD rest name

def eraseD (d : Dir) (name : Str) : Dir := d.filter (fun p => decide (p.1 ≠ name))

def insertD (d : Dir) (name content : Str) : Dir := (name, content) :: eraseD d name

/-- `Path.rename` inside one directory: fails (OSError) iff the source is
missing; an existing destination is replaced (POSIX semantics). -/
def renameD (d : Dir) (src dst : Str) : Option Dir :=
  match lookupD d src with
  | none => none
  | some c => some (insertD (eraseD d src) dst c)

/-- The queue's directories (`tasks/`, `tasks/done/`, `tasks/failed/`). -/
structure FSt where
  tasks : Dir
  done : Dir
  failed : Dir

/-- The `Task` dataclass (task.py lines 19-26). -/
structure TaskR where
  path : Str
  name : Str
  content : Str
  retries : Nat

/-- Code-point comparison of strings: Python `str.__le__`, which is what
`sorted` uses on the names of one directory. -/
def strLe : Str → Str → Bool
  | [], _ => true
  | _ :: _, [] => false
  | a :: as, b :: bs =>
      if a.toNat < b.toNat then true
      else if b.toNat < a.toNat then false
      else strLe as bs

instance strLeTotal : IsTotal Str (fun a b => strLe a b = true) := by
  constructor
  intro a
  induction a with
  | nil => intro b; left; rfl
  | cons x as ih =>
    intro b
    cases b with
    | nil => right; rfl
    | cons y bs =>
      rcases Nat.lt_trichotomy x.toNat y.toNat with h | h | h
      · left; simp [strLe, h]
      · rcases ih bs with h2 | h2
        · left; simp [strLe, h, h2]
        · right; simp [strLe, h.symm, h2]
      · right; simp [strLe, h]

instance strLeTrans : IsTrans Str (fun a b => strLe a b = true) := by
  constructor
  intro a
  induction a with
  | nil => intro b c _ _; rfl
  | cons x as ih =>
    intro b c hab hbc
    cases b with
    | nil => simp [strLe] at hab
    | cons y bs =>
      cases c with
      | nil => simp [strLe] at hbc
      | cons z cs =>
        simp only [strLe] at hab hbc ⊢
        by_cases hxy : x.toNat < y.toNat
        · by_cases hyz : y.toNat < z.toNat
          · simp [show x.toNat < z.toNat by omega]
          · by_cases hzy : z.toNat < y.toNat
            · simp [hyz, hzy] at hbc
            · simp [show x.toNat < z.toNat by omega]
        · by_cases hyx : y.toNat < x.toNat
          · simp [hxy, hyx] at hab
          · by_cases hyz : y.toNat < z.toNat
            · simp [show x.toNat < z.toNat by omega]
            · by_cases hzy : z.toNat < y.toNat
              · simp [hyz, hzy] at hbc
              · simp only [hxy, hyx, if_false] at hab
                simp only [hyz, hzy, if_false] at hbc
                simp only [show ¬x.toNat < z.toNat by omega,
                  show ¬z.toNat < x.toNat by omega, if_false]
                exact ih bs cs hab hbc

theorem strLe_antisymm {a b : Str} (h1 : strLe a b = true) (h2 : strLe b a = true) :
    a = b := by
  induction a generalizing b with
  | nil =>
    cases b with
    | nil => rfl
    | cons y bs => simp [strLe] at h2
  | cons x as ih =>
    cases b with
    | nil => simp [strLe] at h1
    | cons y bs =>
      simp only [strLe] at h1 h2
      by_cases h : x.toNat < y.toNat
      · simp [h, Nat.lt_asymm h] at h2
      · by_cases h' : y.toNat < x.toNat
        · simp [h, h'] at h1
        · have hxy : x = y := Char.ext (UInt32.ext (by
            simp only [Char.toNat] at h h'
            omega))
          subst hxy
          simp only [Nat.lt_irrefl, if_false] at h1 h2
          rw [ih h1 h2]

/-- `sorted(...)` on the names of a directory listing. -/
def sortedStrs (l : List Str) : List Str :=
  List.insertionSort (fun a b => strLe a b = true) l

/-- Does a name match the glob pattern `*.md`?  `glob` never matches
hidden files, and `*` plus the suffix requires the `.md` ending. -/
def globMD (s : Str) : Bool :=
  decide (str ".md" <:+ s) && (match s with | [] => false | c :: _ => decide (c ≠ '.'))

/-- Does a name match the glob pattern `*.md.running.*`? -/
def globRunning (s : Str) : Bool :=
  decide (str ".md.running." <:+: s) &&
    (match s with | [] => false | c :: _ => decide (c ≠ '.'))

/-- `Path.stem`: the file name without its last `.`-suffix. -/
def stem (s : Str) : Str :=
  match s.reverse.dropWhile (fun c => decide (c ≠ '.')) with
  | [] => s
  | _ :: rest => rest.reverse

/-- `f"{task_file.name}.running.{worker_id}"` (task.py line 55). -/
def runningName (pname : Str) (wid : Str) : Str := pname ++ str ".running." ++ wid

/-- `_MAX_TASK_FILE_SIZE = 1024 * 1024` (task.py line 221). -/
def maxTaskFileSize : Nat := 1024 * 1024

/-- `TaskQueue.claim_next` (task.py lines 47-83).  `renameOk` is the
outcome of the OS-level rename (the `except OSError` arm fires when it is
false).  Returns the claimed task (if any) and the new directory state. -/
def claimNext (fs : FSt) (wid : Str) (renameOk : Bool) : Option TaskR × FSt :=
  match sortedStrs ((fs.tasks.map Prod.fst).filter globMD) with
  | [] => (none, fs)
  | first :: _ =>
    if renameOk then
      match renameD fs.tasks first (runningName first wid) with
      | none => (none, fs)
      | some tasks' =>
        let fs' : FSt := { fs with tasks := tasks' }
        match lookupD tasks' (runningName first wid) with
        | none => (none, fs')
        | some content =>
          if maxTaskFileSize < utf8Size content then (none, fs')
          else (some { path := runningName first wid, name := stem first,
                       content := content,
                       retries := extractRetryCount content }, fs')
    else (none, fs)

/-- `TaskQueue.complete` (task.py lines 85-93): move the running file into
`done/` under a timestamped name; a rename failure only logs. -/
def completeQ (fs : FSt) (t : TaskR) (tsName : Str) : FSt :=
  match lookupD fs.tasks t.path with
  | none => fs
  | some c =>
      { fs with tasks := eraseD fs.tasks t.path,
                done := insertD fs.done (tsName ++ '_' :: (t.name ++ str ".md")) c }

/-- The requeue failure header (task.py lines 105-108). -/
def failHeaderRetry (tsIso err : Str) : Str :=
  str "<!-- FAILED at " ++ tsIso ++ str " -->\n<!-- Error: " ++ err ++ str " -->\n"

/-- The terminal failure header (task.py lines 126-130). -/
def failHeaderFinal (tsIso err : Str) (newRetries maxRetries : Nat) : Str :=
  str "<!-- FINAL FAILURE at " ++ tsIso ++ str " -->\n<!-- Error: " ++ err ++
  str " -->\n<!-- Retries exhausted: " ++ natDigits newRetries ++ str "/" ++
  natDigits maxRetries ++ str " -->\n"

/-- `TaskQueue.fail` (task.py lines 95-141) at the atomic level: the
`_atomic_write` is one map update (its crash behaviour is modelled
separately by `failOps`).  `tsName` is the `strftime` filename timestamp,
`tsIso` the `isoformat` header timestamp. -/
def failQ (fs : FSt) (t : TaskR) (err : Str) (tsName tsIso : Str) (maxRetries : Nat) :
    FSt :=
  if t.retries + 1 < maxRetries then
    { fs with tasks := eraseD (insertD fs.tasks (t.name ++ str ".md")
        (failHeaderRetry tsIso err ++ setRetryCount t.content (t.retries + 1))) t.path }
  else
    { fs with tasks := eraseD fs.tasks t.path,
              failed := insertD fs.failed (tsName ++ '_' :: (t.name ++ str ".md"))
                (failHeaderFinal tsIso err (t.retries + 1) maxRetries ++ t.content) }

/-- Modelled from the spec: `TaskQueue.release` is called by the worker on
shutdown (worker.py line 204) but its definition is not among the sources
under `src/`.  Spec §4.4/§5: the task is "released back to its
claimed-pending form unchanged" — the running file is renamed back to the
plain pending name, content untouched. -/
def releaseQ (fs : FSt) (t : TaskR) : FSt :=
  match renameD fs.tasks t.path (t.name ++ str ".md") with
  | none => fs
  | some tasks' => { fs with tasks := tasks' }

/-- `running_file.name.split(".running.")[0]`: the name part before the
first occurrence of `.running.`. -/
def beforeRunning : Str → Str
  | [] => []
  | x :: xs =>
      if (str ".running.").isPrefixOf (x :: xs) then []
      else x :: beforeRunning xs

/-- One step of `TaskQueue.recover_running` (task.py lines 200-217). -/
def recoverStep (st : Nat × Dir) (rname : Str) : Nat × Dir :=
  let orig := beforeRunning rname
  match lookupD st.2 orig with
  | some _ => (st.1 + 1, eraseD st.2 rname)
  | none =>
      match renameD st.2 rname orig with
      | none => (st.1, st.2)
      | some d' => (st.1 + 1, d')

/-- `TaskQueue.recover_running` (task.py lines 192-218). -/
def recoverRunning (fs : FSt) : Nat × FSt :=
  let runs := sortedStrs ((fs.tasks.map Prod.fst).filter globRunning)
  let out := runs.foldl recoverStep (0, fs.tasks)
  (out.1, { fs with tasks := out.2 })

/-! ## `retry_failed` -/

/-- Python line-break characters recognised by `str.splitlines`. -/
def isNlCh (c : Char) : Bool :=
  c.toNat = 10 || c.toNat = 13 || c.toNat = 11 || c.toNat = 12 ||
  c.toNat = 0x1c || c.toNat = 0x1d || c.toNat = 0x1e || c.toNat = 0x85 ||
  c.toNat = 0x2028 || c.toNat = 0x2029

/-- Worker of `pySplitlines`: `cur` is the current line, reversed. -/
def splitlinesGo : Str → Str → List Str
  | cur, [] => [cur.reverse]
  | cur, '\r' :: '\n' :: rest =>
      (match rest with
       | [] => [cur.reverse]
       | _ :: _ => cur.reverse :: splitlinesGo [] rest)
  | cur, c :: rest =>
      if isNlCh c then
        (match rest with
         | [] => [cur.reverse]
         | _ :: _ => cur.reverse :: splitlinesGo [] rest)
      else splitlinesGo (c :: cur) rest

/-- `str.splitlines()` (no terminator kept; `\r\n` is one break; no final
empty line for a trailing break). -/
def pySplitlines (s : Str) : List Str :=
  match s with
  | [] => []
  | _ :: _ => splitlinesGo [] s

/-- `str.strip()` with no argument: drop whitespace at both ends. -/
def pyStrip (s : Str) : Str :=
  ((s.dropWhile isWsCh).reverse.dropWhile isWsCh).reverse

/-- `"\n".join(lines)`. -/
def joinNL : List Str → Str
  | [] => []
  | [l] => l
  | l :: ls => l ++ '\n' :: joinNL ls

/-- `_comment_prefixes` (task.py lines 157-163). -/
def markerHeads : List Str :=
  [str "<!-- RETRY:", str "<!-- FAILED", str "<!-- FINAL FAILURE",
   str "<!-- Error:", str "<!-- Retries exhausted"]

/-- `any(line.strip().startswith(p) for p in _comment_prefixes)`. -/
def lineIsMarker (l : Str) : Bool :=
  markerHeads.any (fun p => p.isPrefixOf (pyStrip l))

/-- Consume exactly `k` decimal digits (`\d{k}`). -/
def exactDigits : Nat → Str → Option Str
  | 0, s => some s
  | _ + 1, [] => none
  | k + 1, c :: rest => if isDigCh c then exactDigits k rest else none

/-- `_ts_prefix.sub("", s)` for `_ts_prefix = re.compile(r"^\d{8}_\d{6}(_\d{6})?_")`
(task.py line 156): strip the anchored timestamp prefix when it matches;
the optional group is tried greedily first, with regex backtracking. -/
def tsStripName (s : Str) : Str :=
  match exactDigits 8 s with
  | none => s
  | some r1 =>
    match r1 with
    | '_' :: r2 =>
      match exactDigits 6 r2 with
      | none => s
      | some r3 =>
        match (match r3 with
               | '_' :: r4 =>
                 (match exactDigits 6 r4 with
                  | some ('_' :: r6) => some r6
                  | _ => none)
               | _ => none) with
        | some r => r
        | none =>
          match r3 with
          | '_' :: r => r
          | _ => s
    | _ => s

/-- `"\n".join(clean_lines).strip() + "\n"` applied to the marker-filtered
lines (task.py lines 176-181). -/
def cleanTaskContent (content : Str) : Str :=
  pyStrip (joinNL ((pySplitlines content).filter (fun l => !lineIsMarker l))) ++ ['\n']

/-- The failed files matched by `retry_failed` (task.py lines 166-172):
either the ones matching `name` (listing order), or all, sorted. -/
def retryFailedMatches (failD : Dir) (nameQ : Option Str) : List Str :=
  match nameQ with
  | some nm =>
      ((failD.map Prod.fst).filter globMD).filter
        (fun f => decide (stem f = nm) || decide (tsStripName (stem f) = nm))
  | none => sortedStrs ((failD.map Prod.fst).filter globMD)

/-- One iteration of the `retry_failed` loop (task.py lines 175-188):
clean the content, strip the filename timestamp, write into pending,
remove from failed, record the destination name. -/
def retryFailedStep (st : Dir × Dir × List Str) (srcName : Str) : Dir × Dir × List Str :=
  match lookupD st.2.1 srcName with
  | none => st
  | some content =>
      (insertD st.1 (tsStripName srcName) (cleanTaskContent content),
       eraseD st.2.1 srcName,
       st.2.2 ++ [tsStripName srcName])

/-- `TaskQueue.retry_failed` (task.py lines 143-190) over the two
directories; returns the new pending dir, new failed dir, and the list of
retried destination names. -/
def retryFailed (taskD failD : Dir) (nameQ : Option Str) : Dir × Dir × List Str :=
  (retryFailedMatches failD nameQ).foldl retryFailedStep (taskD, failD, [])

/-! ## `_atomic_write` micro-step model (for crash behaviour)

`_atomic_write` (task.py lines 224-236) performs: `mkstemp` in the
destination directory, write the content to the temp file, `os.replace`
onto the destination; on any exception the temp file is unlinked and the
exception re-raised.  `fail()` unlinks the running file only after
`_atomic_write` returns.  A crash stops execution after a prefix of these
primitive operations. -/

inductive FsOp where
  | mkTmp (name : Str)
  | writeFile (name : Str) (content : Str)
  | replaceFile (src dst : Str)
  | unlinkFile (name : Str)

def applyOp (d : Dir) : FsOp → Dir
  | .mkTmp n => insertD d n []
  | .writeFile n c => insertD d n c
  | .replaceFile s t =>
      (match renameD d s t with
       | none => d
       | some d' => d')
  | .unlinkFile n => eraseD d n

def applyOps (d : Dir) (ops : List FsOp) : Dir := ops.foldl applyOp d

/-- The primitive operations of one `fail()` call writing `content` to
`dest`, then unlinking `running` — the no-exception order of task.py
lines 224-230 followed by line 113 resp. line 134. -/
def failOps (running dest tmp : Str) (content : Str) : List FsOp :=
  [.mkTmp tmp, .writeFile tmp content, .replaceFile tmp dest, .unlinkFile running]

/-- The operations actually executed when the write to the temp file
raises: the `except BaseException` arm unlinks only the temp file
(task.py lines 231-236) and `fail()` never reaches its unlink. -/
def failOpsWriteError (tmp : Str) : List FsOp :=
  [.mkTmp tmp, .unlinkFile tmp]

/-! ## Worker model (`worker.py`) -/

/-- The part of `manager.TaskResult` the worker consumes. -/
inductive TaskOutcome where
  | released
  | completed
  | failed

/-- The tail of `_execute_task` (worker.py lines 201-223): after the
execution returns, check the shutdown signal first (release), then
branch on success (complete) or failure (fail). -/
def executeOutcome (fs : FSt) (shutdownSet : Bool) (resSuccess : Bool) (resError : Str)
    (t : TaskR) (tsName tsIso : Str) (maxRetries : Nat) : FSt × TaskOutcome :=
  if shutdownSet then (releaseQ fs t, .released)
  else if resSuccess then (completeQ fs t tsName, .completed)
  else (failQ fs t resError tsName tsIso maxRetries, .failed)

/-- How one iteration of the worker loop observes its environment: the
shutdown flag at the top of the loop, the OS rename outcome inside
`claim_next`, the external agent's result, the shutdown flag when the
execution returns, and the timestamps drawn during archiving. -/
structure WorkerStepEnv where
  shutdownAtTop : Bool
  renameOk : Bool
  resSuccess : Bool
  resError : Str
  shutdownAtReturn : Bool
  tsName : Str
  tsIso : Str

inductive LoopExit where
  | shutdown
  | queueEmpty
  | fuelOut

/-- `worker_loop` (worker.py lines 135-163): claim until the shutdown
event is set or `claim_next` returns `None` (both `None` reasons — empty
queue, lost race, oversized file — end the loop).  `fuel` bounds the
number of iterations of the model. -/
def workerLoopF (wid : Str) (maxRetries : Nat) (env : Nat → WorkerStepEnv) :
    Nat → FSt → LoopExit × FSt
  | 0, fs => (.fuelOut, fs)
  | fuel + 1, fs =>
    let e := env 0
    if e.shutdownAtTop then (.shutdown, fs)
    else
      match claimNext fs wid e.renameOk with
      | (none, fs') => (.queueEmpty, fs')
      | (some t, fs') =>
          let out := executeOutcome fs' e.shutdownAtReturn e.resSuccess e.resError t
            e.tsName e.tsIso maxRetries
          workerLoopF wid maxRetries (fun k => env (k + 1)) fuel out.1

/-- One claim-then-fail round (the trajectory of C3: an agent that always
fails). -/
def claimFailRound (wid err tsName tsIso : Str) (maxRetries : Nat) (fs : FSt) : FSt :=
  match claimNext fs wid true with
  | (none, fs') => fs'
  | (some t, fs') => failQ fs' t err tsName tsIso maxRetries

/-- `k` claim-then-fail rounds. -/
def claimFailIter (wid err tsName tsIso : Str) (maxRetries : Nat) (fs : FSt) :
    Nat → FSt
  | 0 => fs
  | k + 1 => claimFailRound wid err tsName tsIso maxRetries
      (claimFailIter wid err tsName tsIso maxRetries fs k)

/-! ## Approval model (`approval.py`) -/

inductive ApprovalDecision where
  | pending
  | approved
  | rejected
deriving DecidableEq

/-- The mutable state of one `PendingApproval` (approval.py lines 16-38):
its decision and its `threading.Event` flag. -/
structure ApprovalSt where
  decision : ApprovalDecision
  eventSet : Bool
deriving DecidableEq

/-- A fresh `PendingApproval`. -/
def approvalInit : ApprovalSt := ⟨.pending, false⟩

/-- `PendingApproval.approve` (lines 32-34): set the decision, set the
event — unconditionally. -/
def approvalApprove (_ : ApprovalSt) : ApprovalSt := ⟨.approved, true⟩

/-- `PendingApproval.reject` (lines 36-38): set the decision, set the
event — unconditionally. -/
def approvalReject (_ : ApprovalSt) : ApprovalSt := ⟨.rejected, true⟩

/-- `PendingApproval.wait` (lines 28-30) returns `self._event.wait(...)`:
whether the event is set; in the decided state it returns immediately
with `True`, in the pending state the caller blocks (modelled as the
`false` value a timed-out wait returns). -/
def approvalWaitReady (s : ApprovalSt) : Bool := s.eventSet

/-- The `ApprovalStore` map (approval.py lines 41-89): insertion-ordered
ids mapped to approval states. -/
abbrev ApprovalStore := List (Str × ApprovalSt)

def lookupA : ApprovalStore → Str → Option ApprovalSt
  | [], _ => none
  | (k, v) :: rest, aid => if k = aid then some v else lookupA rest aid

/-- In-place mutation of the item bound to `aid` (Python mutates the
object held in the dict). -/
def updateA : ApprovalStore → Str → ApprovalSt → ApprovalStore
  | [], _, _ => []
  | (k, v) :: rest, aid, s =>
      if k = aid then (k, s) :: rest else (k, v) :: updateA rest aid s

/-- `ApprovalStore.submit` (lines 48-58) with the fresh uuid `aid`. -/
def storeSubmit (st : ApprovalStore) (aid : Str) : ApprovalStore :=
  st ++ [(aid, approvalInit)]

/-- `ApprovalStore.approve` (lines 71-77): `False` when the id is absent,
else apply the item's `approve` and return `True`. -/
def storeApprove (st : ApprovalStore) (aid : Str) : Bool × ApprovalStore :=
  match lookupA st aid with
  | none => (false, st)
  | some s => (true, updateA st aid (approvalApprove s))

/-- `ApprovalStore.reject` (lines 79-85). -/
def storeReject (st : ApprovalStore) (aid : Str) : Bool × ApprovalStore :=
  match lookupA st aid with
  | none => (false, st)
  | some s => (true, updateA st aid (approvalReject s))

/-! ## Stream-json parse model (`manager.py` lines 51-109)

A stdout line is either `text s` (its stripped form fails `json.loads`)
or `json v` (it decodes to the JSON value `v`); the decode itself is the
standard library's.  Python dynamic typing is modelled by explicit error
values: `keyError` for `block["text"]`, `attributeError` for `.get` on a
non-dict, `typeError` for iterating/indexing the wrong shape. -/

/-- JSON values as returned by `json.loads` (numbers collapsed to `Int`;
float payloads do not occur in the guards the parser takes). -/
inductive JVal where
  | str (s : Str)
  | num (n : Int)
  | bool (b : Bool)
  | null
  | arr (xs : List JVal)
  | obj (fields : List (Str × JVal))

mutual
/-- Python `==` on decoded JSON values. -/
def jvalBeq : JVal → JVal → Bool
  | .str a, .str b => decide (a = b)
  | .num a, .num b => decide (a = b)
  | .bool a, .bool b => a == b
  | .null, .null => true
  | .arr as, .arr bs => jvalListBeq as bs
  | .obj as, .obj bs => jvalFieldsBeq as bs
  | _, _ => false

def jvalListBeq : List JVal → List JVal → Bool
  | [], [] => true
  | a :: as, b :: bs => jvalBeq a b && jvalListBeq as bs
  | _, _ => false

def jvalFieldsBeq : List (Str × JVal) → List (Str × JVal) → Bool
  | [], [] => true
  | (k1, v1) :: as, (k2, v2) :: bs =>
      decide (k1 = k2) && jvalBeq v1 v2 && jvalFieldsBeq as bs
  | _, _ => false
end

/-- Pythonic list membership (`x in xs`) under `==`. -/
def jvalMem (x : JVal) (xs : List JVal) : Bool := xs.any (fun y => jvalBeq y x)

/-- Field lookup in a decoded JSON object. -/
def jLookup : List (Str × JVal) → Str → Option JVal
  | [], _ => none
  | (k, v) :: rest, key => if k = key then some v else jLookup rest key

inductive PyErr where
  | keyError
  | typeError
  | attributeError
deriving DecidableEq

/-- One stdout line after the independent `json.loads` attempt. -/
inductive SLine where
  | text (s : Str)
  | json (v : JVal)

/-- `TaskResult` (manager.py lines 19-29) restricted to the fields the
parser populates (`duration_seconds` is a float and `return_code` is set
by the caller; both are irrelevant to the parse). -/
structure TaskResultM where
  success : Bool
  output : Str
  error : Str
  filesChanged : List JVal
  toolCalls : List JVal

/-- `for block in message.get("content", [])`: iterating a list yields its
elements, a string its characters (as 1-character strings), a dict its
keys; iterating a number, bool or `None` raises `TypeError`. -/
def contentBlocks : JVal → Except PyErr (List JVal)
  | .arr xs => .ok xs
  | .str s => .ok (s.map (fun c => JVal.str [c]))
  | .obj fs => .ok (fs.map (fun p => JVal.str p.1))
  | _ => .error .typeError

/-- The texts appended by manager.py lines 74-76: for each dict block of
type `text`, `block["text"]` (a `KeyError` if the key is absent). -/
def collectTexts : List JVal → Except PyErr (List JVal)
  | [] => .ok []
  | b :: bs =>
    match b with
    | .obj bfs =>
        if jvalBeq ((jLookup bfs (str "type")).getD (JVal.str [])) (JVal.str (str "text")) then
          match jLookup bfs (str "text") with
          | none => .error .keyError
          | some tv =>
              match collectTexts bs with
              | .error e => .error e
              | .ok rest => .ok (tv :: rest)
        else collectTexts bs
    | _ => collectTexts bs

/-- The blocks appended to `tool_calls` by manager.py lines 84-86. -/
def collectToolBlocks (blocks : List JVal) : List JVal :=
  blocks.filter (fun b =>
    match b with
    | .obj bfs => jvalBeq ((jLookup bfs (str "type")).getD (JVal.str [])) (JVal.str (str "tool_use"))
    | _ => false)

/-- Section 1 of the loop body (lines 71-76): the assistant text parts. -/
def assistantTexts (fs : List (Str × JVal)) : Except PyErr (List JVal) :=
  if jvalBeq ((jLookup fs (str "type")).getD (JVal.str [])) (JVal.str (str "assistant")) &&
      (jLookup fs (str "message")).isSome then
    match (jLookup fs (str "message")).getD JVal.null with
    | .obj mfs =>
        match contentBlocks ((jLookup mfs (str "content")).getD (JVal.arr [])) with
        | .error e => .error e
        | .ok blocks => collectTexts blocks
    | _ => .ok []
  else .ok []

/-- Section 2 of the loop body (lines 79-86): the tool calls recorded for
this event. -/
def eventToolCalls (fs : List (Str × JVal)) : Except PyErr (List JVal) :=
  if jvalBeq ((jLookup fs (str "type")).getD (JVal.str [])) (JVal.str (str "tool_use")) then
    .ok [JVal.obj fs]
  else if jvalBeq ((jLookup fs (str "type")).getD (JVal.str [])) (JVal.str (str "assistant")) &&
      (jLookup fs (str "message")).isSome then
    match (jLookup fs (str "message")).getD JVal.null with
    | .obj mfs =>
        match contentBlocks ((jLookup mfs (str "content")).getD (JVal.arr [])) with
        | .error e => .error e
        | .ok blocks => .ok (collectToolBlocks blocks)
    | _ => .ok []
  else .ok []

/-- Section 3 of the loop body (lines 89-92): the result payload, only
when it is a string. -/
def resultParts (fs : List (Str × JVal)) : List JVal :=
  if jvalBeq ((jLookup fs (str "type")).getD (JVal.str [])) (JVal.str (str "result")) then
    match (jLookup fs (str "result")).getD (JVal.str []) with
    | .str s => [JVal.str s]
    | _ => []
  else []

/-- The loop body of `_parse_stream_json` (lines 57-92) on the running
`(output_parts, tool_calls)` state. -/
def processLine (st : List JVal × List JVal) (l : SLine) :
    Except PyErr (List JVal × List JVal) :=
  match l with
  | .text s =>
      if pyStrip s = [] then .ok st
      else .ok (st.1 ++ [JVal.str (pyStrip s)], st.2)
  | .json v =>
      match v with
      | .obj fs =>
          (match assistantTexts fs with
           | .error e => .error e
           | .ok texts =>
             match eventToolCalls fs with
             | .error e => .error e
             | .ok tools => .ok (st.1 ++ texts ++ resultParts fs, st.2 ++ tools))
      | _ => .error .attributeError

def writeNames : List JVal :=
  [JVal.str (str "Write"), JVal.str (str "Edit"),
   JVal.str (str "write"), JVal.str (str "edit")]

/-- `"file_path" in tool_input` (line 98): key test for a dict, substring
test for a string, element test for a list, `TypeError` otherwise. -/
def filePathIn : JVal → Except PyErr Bool
  | .obj fs => .ok (jLookup fs (str "file_path")).isSome
  | .str s => .ok (decide (str "file_path" <:+: s))
  | .arr xs => .ok (jvalMem (JVal.str (str "file_path")) xs)
  | _ => .error .typeError

/-- `tool_input["file_path"]` (line 99): dict lookup; indexing a string
or list with a string raises `TypeError`. -/
def filePathGet : JVal → Except PyErr JVal
  | .obj fs =>
      (match jLookup fs (str "file_path") with
       | some v => .ok v
       | none => .error .keyError)
  | _ => .error .typeError

/-- One iteration of the files-changed pass (lines 95-101). -/
def filesStep (acc : List JVal) (tc : JVal) : Except PyErr (List JVal) :=
  match tc with
  | .obj fs =>
      if jvalMem ((jLookup fs (str "name")).getD (JVal.str [])) writeNames then
        match filePathIn ((jLookup fs (str "input")).getD (JVal.obj [])) with
        | .error e => .error e
        | .ok hasFp =>
          if hasFp then
            match filePathGet ((jLookup fs (str "input")).getD (JVal.obj [])) with
            | .error e => .error e
            | .ok fp => if jvalMem fp acc then .ok acc else .ok (acc ++ [fp])
          else .ok acc
      else .ok acc
  | _ => .ok acc

/-- `"\n".join(output_parts)` (line 103): every part must be a string. -/
def partsStrings : List JVal → Except PyErr (List Str)
  | [] => .ok []
  | .str s :: rest =>
      (match partsStrings rest with
       | .error e => .error e
       | .ok r => .ok (s :: r))
  | _ :: _ => .error .typeError

/-- `_parse_stream_json(lines)` (manager.py lines 51-109). -/
def parseStreamJson (lines : List SLine) : Except PyErr TaskResultM :=
  match lines.foldlM processLine ([], []) with
  | .error e => .error e
  | .ok (parts, tools) =>
    match tools.foldlM filesStep [] with
    | .error e => .error e
    | .ok files =>
      match partsStrings parts with
      | .error e => .error e
      | .ok ps =>
          .ok { success := true, output := joinNL ps, error := [],
                filesChanged := files, toolCalls := tools }

/-! Spec-side (total) description of the stream-json parse, written from
the spec's words for the refinement claim: "assistant text blocks and
result payloads are appended to the output; tool-use events are recorded
as tool calls; and the changed-files list contains exactly the file_path
inputs of Write/Edit-style tool calls, de-duplicated and in first-seen
order".  The `parseStreamJson` pipeline above is compared against these. -/

/-- Spec side: the list a `for block in content` loop ranges over. -/
def contentListSpec : JVal → List JVal
  | .arr xs => xs
  | .str s => s.map (fun c => JVal.str [c])
  | .obj ofs => ofs.map (fun p => JVal.str p.1)
  | _ => []

/-- Spec side: the `"text"` payloads of the dict blocks of type `text`. -/
def textBlocksSpec (blocks : List JVal) : List JVal :=
  blocks.filterMap (fun b =>
    match b with
    | .obj bfs =>
        if jvalBeq ((jLookup bfs (str "type")).getD (JVal.str [])) (JVal.str (str "text")) then
          jLookup bfs (str "text")
        else none
    | _ => none)

/-- Spec side: the content blocks of an assistant event's message. -/
def msgBlocksSpec (fs : List (Str × JVal)) : List JVal :=
  if jvalBeq ((jLookup fs (str "type")).getD (JVal.str [])) (JVal.str (str "assistant")) &&
      (jLookup fs (str "message")).isSome then
    match (jLookup fs (str "message")).getD JVal.null with
    | .obj mfs => contentListSpec ((jLookup mfs (str "content")).getD (JVal.arr []))
    | _ => []
  else []

/-- Spec side: the output parts contributed by one line — a non-JSON line
itself (stripped), assistant text blocks, and string result payloads. -/
def lineTextsSpec : SLine → List JVal
  | .text s => if pyStrip s = [] then [] else [JVal.str (pyStrip s)]
  | .json (.obj fs) => textBlocksSpec (msgBlocksSpec fs) ++ resultParts fs
  | .json _ => []

/-- Spec side: the tool calls recorded for one line — a `tool_use` event
itself, or the `tool_use` blocks of an assistant message. -/
def lineToolsSpec : SLine → List JVal
  | .text _ => []
  | .json (.obj fs) =>
      if jvalBeq ((jLookup fs (str "type")).getD (JVal.str [])) (JVal.str (str "tool_use")) then
        [JVal.obj fs]
      else collectToolBlocks (msgBlocksSpec fs)
  | .json _ => []

/-- Spec side: the `file_path` input of a Write/Edit-style tool call. -/
def writeFilePathSpec : JVal → Option JVal
  | .obj fs =>
      if jvalMem ((jLookup fs (str "name")).getD (JVal.str [])) writeNames then
        match (jLookup fs (str "input")).getD (JVal.obj []) with
        | .obj ifs => jLookup ifs (str "file_path")
        | _ => none
      else none
  | _ => none

/-- Spec side: de-duplication keeping the first occurrence, under
Python `==`. -/
def dedupAcc : List JVal → List JVal → List JVal
  | acc, [] => acc
  | acc, x :: xs => if jvalMem x acc then dedupAcc acc xs else dedupAcc (acc ++ [x]) xs

def dedupKeepFirst (xs : List JVal) : List JVal := dedupAcc [] xs

/-- The string under a `JVal.str` (the output parts are all strings on a
well-formed stream). -/
def jstrVal : JVal → Str
  | .str s => s
  | _ => []

/-- Well-formedness of a text block: if it is a dict of type `text` it
carries a string under the key `"text"` (otherwise `block["text"]` raises
`KeyError`, or the later `"\n".join` raises `TypeError`). -/
def blockTextOkB : JVal → Bool
  | .obj bfs =>
      !(jvalBeq ((jLookup bfs (str "type")).getD (JVal.str [])) (JVal.str (str "text"))) ||
      (match jLookup bfs (str "text") with
       | some (.str _) => true
       | _ => false)
  | _ => true

/-- Well-formedness of a message's `content`: something Python can
iterate (list, string or dict — not a number, bool or `None`). -/
def contentOkB : JVal → Bool
  | .arr _ => true
  | .str _ => true
  | .obj _ => true
  | _ => false

/-- Well-formedness of a recorded tool call: a Write/Edit-style call's
`input` is a dict (or absent), else `tool_input["file_path"]` or the
`in` test raises `TypeError`. -/
def toolOkB : JVal → Bool
  | .obj fs =>
      !(jvalMem ((jLookup fs (str "name")).getD (JVal.str [])) writeNames) ||
      (match (jLookup fs (str "input")).getD (JVal.obj []) with
       | .obj _ => true
       | _ => false)
  | _ => true

/-- Well-formedness of one stdout line: a decoded line must be a JSON
object (`event.get` on anything else raises `AttributeError`), an
assistant message's content must be iterable, its text blocks must carry
string texts, and its recorded tool calls must have dict inputs. -/
def lineOkB : SLine → Bool
  | .text _ => true
  | .json (.obj fs) =>
      (if jvalBeq ((jLookup fs (str "type")).getD (JVal.str [])) (JVal.str (str "assistant")) &&
          (jLookup fs (str "message")).isSome then
        match (jLookup fs (str "message")).getD JVal.null with
        | .obj mfs => contentOkB ((jLookup mfs (str "content")).getD (JVal.arr []))
        | _ => true
      else true) &&
      (msgBlocksSpec fs).all blockTextOkB &&
      (lineToolsSpec (.json (.obj fs))).all toolOkB
  | .json _ => false

/-! ## Directory lemmas -/

section DirLemmas

theorem eraseD_cons_self {k : Str} (v : Str) (rest : Dir) {n : Str} (hk : k = n) :
    eraseD ((k, v) :: rest) n = eraseD rest n := by
  simp [eraseD, List.filter_cons, hk]

theorem eraseD_cons_ne {k : Str} (v : Str) (rest : Dir) {n : Str} (hk : k ≠ n) :
    eraseD ((k, v) :: rest) n = (k, v) :: eraseD rest n := by
  simp [eraseD, List.filter_cons, hk]

theorem lookupD_erase_self (d : Dir) (n : Str) : lookupD (eraseD d n) n = none := by
  induction d with
  | nil => rfl
  | cons p rest ih =>
    by_cases hp : p.1 = n
    · rw [show p = (p.1, p.2) from rfl, eraseD_cons_self _ _ hp]
      exact ih
    · rw [show p = (p.1, p.2) from rfl, eraseD_cons_ne _ _ hp]
      simp only [lookupD, if_neg hp]
      exact ih

theorem lookupD_erase_ne (d : Dir) (n m : Str) (h : m ≠ n) :
    lookupD (eraseD d n) m = lookupD d m := by
  induction d with
  | nil => rfl
  | cons p rest ih =>
    by_cases hp : p.1 = n
    · rw [show p = (p.1, p.2) from rfl, eraseD_cons_self _ _ hp]
      rw [ih]
      have hpm : p.1 ≠ m := by
        rw [hp]
        exact fun hc => h hc.symm
      simp [lookupD, if_neg hpm]
    · rw [show p = (p.1, p.2) from rfl, eraseD_cons_ne _ _ hp]
      simp only [lookupD]
      by_cases hm : p.1 = m
      · simp [hm]
      · rw [if_neg hm, if_neg hm]
        exact ih

theorem lookupD_insert_self (d : Dir) (n c : Str) : lookupD (insertD d n c) n = some c := by
  simp [insertD, lookupD]

theorem lookupD_insert_ne (d : Dir) (n c m : Str) (h : m ≠ n) :
    lookupD (insertD d n c) m = lookupD d m := by
  simp only [insertD, lookupD, if_neg (fun hc : n = m => h hc.symm)]
  exact lookupD_erase_ne d n m h

theorem lookupD_isSome_of_mem_keys {d : Dir} {k : Str} (h : k ∈ d.map Prod.fst) :
    (lookupD d k).isSome := by
  induction d with
  | nil => cases h
  | cons p rest ih =>
    simp only [List.map_cons, List.mem_cons] at h
    by_cases hp : p.1 = k
    · simp [lookupD, hp]
    · simp only [lookupD, if_neg hp]
      exact ih (h.resolve_left (fun hc => hp hc.symm))

theorem mem_keys_of_lookupD {d : Dir} {k : Str} {c : Str} (h : lookupD d k = some c) :
    k ∈ d.map Prod.fst := by
  induction d with
  | nil => cases h
  | cons p rest ih =>
    simp only [lookupD] at h
    by_cases hp : p.1 = k
    · simp [hp]
    · rw [if_neg hp] at h
      simp only [List.map_cons, List.mem_cons]
      exact Or.inr (ih h)

end DirLemmas

/-! ## Sorted-list lemmas -/

section SortLemmas

theorem strLe_refl (a : Str) : strLe a a = true := by
  induction a with
  | nil => rfl
  | cons x as ih => simp [strLe, ih]

theorem sortedStrs_head_min {l : List Str} {first : Str} {rest : List Str}
    (h : sortedStrs l = first :: rest) : first ∈ l ∧ ∀ p ∈ l, strLe first p = true := by
  have hperm := List.perm_insertionSort (fun a b : Str => strLe a b = true) l
  have hsorted := List.sorted_insertionSort (fun a b : Str => strLe a b = true) l
  rw [show List.insertionSort (fun a b : Str => strLe a b = true) l = sortedStrs l
    from rfl, h] at hperm hsorted
  constructor
  · exact hperm.mem_iff.mp (by simp)
  · intro p hp
    rcases List.mem_cons.mp (hperm.mem_iff.mpr hp) with h1 | h1
    · rw [h1]
      exact strLe_refl first
    · exact List.rel_of_sorted_cons hsorted p h1

theorem sortedStrs_eq_nil {l : List Str} (h : sortedStrs l = []) : l = [] := by
  have hperm := List.perm_insertionSort (fun a b : Str => strLe a b = true) l
  rw [show List.insertionSort (fun a b : Str => strLe a b = true) l = sortedStrs l
    from rfl, h] at hperm
  exact hperm.symm.eq_nil

end SortLemmas

/-! ## C10: the retry-marker codec -/

/-- C10: the retry-marker codec round-trips: for every content string and
every count `n`, extracting the retry count from `_set_retry_count(content, n)`
yields `n`; and extracting from content without a `<!-- RETRY: n -->`
marker yields 0.  Hence the count embedded by `fail()` survives the file
being re-read as a fresh claim. -/
theorem retry_codec_round_trip :
    (∀ content n, extractRetryCount (setRetryCount content n) = n) ∧
    (∀ content, searchRetry content = none → extractRetryCount content = 0) := by
  constructor
  · intro content n
    unfold extractRetryCount
    rw [searchRetry_setRetryCount]
  · intro content h
    unfold extractRetryCount
    rw [h]

/-- Witness for C10 at concrete inputs. -/
theorem retry_codec_round_trip_witness :
    extractRetryCount (setRetryCount (str "fix the bug") 3) = 3 ∧
    extractRetryCount (setRetryCount (str "<!-- RETRY: 1 -->\nfix the bug") 2) = 2 ∧
    extractRetryCount (str "fix the bug") = 0 :=
  ⟨retry_codec_round_trip.1 (str "fix the bug") 3,
   retry_codec_round_trip.1 (str "<!-- RETRY: 1 -->\nfix the bug") 2,
   retry_codec_round_trip.2 (str "fix the bug") (by decide)⟩

/-! ## C9: the approval gate -/

theorem lookupA_updateA_self {st : ApprovalStore} {aid : Str}
    (h : (lookupA st aid).isSome) (s' : ApprovalSt) :
    lookupA (updateA st aid s') aid = some s' := by
  induction st with
  | nil => cases h
  | cons p rest ih =>
    by_cases hp : p.1 = aid
    · cases p
      simp_all [lookupA, updateA]
    · cases p
      simp_all [lookupA, updateA]

/-- C9 counterexample: the claim says a second `approve`/`reject` after a
decision does not change it; but the code has no guard, so a `reject`
after an `approve` flips the decision from approved to rejected. -/
theorem approval_decision_not_write_once :
    (approvalApprove approvalInit).decision = ApprovalDecision.approved ∧
    (approvalReject (approvalApprove approvalInit)).decision = ApprovalDecision.rejected ∧
    (approvalReject (approvalApprove approvalInit)).decision ≠
      (approvalApprove approvalInit).decision := by
  decide

/-- C9 amended: `wait` is not ready before any decision and is ready
immediately after one, observing that decision; a repeated call of the
same operation leaves the state unchanged, but an opposite later call
overwrites the decision (the store has no write-once guard); the store's
`approve` returns `False` without effect for an unknown id and `True`
after mutating the stored item otherwise. -/
theorem approval_gate_behavior :
    approvalWaitReady approvalInit = false ∧
    (∀ s, approvalWaitReady (approvalApprove s) = true ∧
      (approvalApprove s).decision = ApprovalDecision.approved) ∧
    (∀ s, approvalWaitReady (approvalReject s) = true ∧
      (approvalReject s).decision = ApprovalDecision.rejected) ∧
    (∀ s, approvalApprove (approvalApprove s) = approvalApprove s) ∧
    (∀ s, approvalReject (approvalReject s) = approvalReject s) ∧
    (∀ st aid, (lookupA st aid).isSome →
      (storeApprove st aid).1 = true ∧
      lookupA (storeApprove st aid).2 aid = some ⟨ApprovalDecision.approved, true⟩) ∧
    (∀ st aid, lookupA st aid = none → storeApprove st aid = (false, st)) := by
  refine ⟨rfl, fun s => ⟨rfl, rfl⟩, fun s => ⟨rfl, rfl⟩, fun s => rfl, fun s => rfl,
    ?_, ?_⟩
  · intro st aid h
    obtain ⟨s, hs⟩ := Option.isSome_iff_exists.mp h
    unfold storeApprove
    rw [hs]
    exact ⟨rfl, lookupA_updateA_self (by simp [hs]) _⟩
  · intro st aid h
    unfold storeApprove
    rw [h]

/-- Witness for C9's amended theorem at a concrete store. -/
theorem approval_gate_behavior_witness :
    ((lookupA (storeSubmit [] (str "id1")) (str "id1")).isSome ∧
      (storeApprove (storeSubmit [] (str "id1")) (str "id1")).1 = true ∧
      lookupA (storeApprove (storeSubmit [] (str "id1")) (str "id1")).2 (str "id1") =
        some ⟨ApprovalDecision.approved, true⟩) ∧
    lookupA [] (str "none") = none ∧
    storeApprove [] (str "none") = (false, []) := by
  refine ⟨⟨by decide, ?_, ?_⟩, rfl, ?_⟩
  · exact (approval_gate_behavior.2.2.2.2.2.1 _ _ (by decide)).1
  · exact (approval_gate_behavior.2.2.2.2.2.1 _ _ (by decide)).2
  · exact approval_gate_behavior.2.2.2.2.2.2 _ _ rfl

/-! ## C4: crash safety of `fail()`'s atomic write -/

/-- C4: if `fail()`'s atomic write aborts at any point — execution stops
after any prefix of its primitive operations, or the write raises and the
cleanup arm runs — the old running file or the new destination file is on
disk at every point; the in-flight task is never lost.  The running file
is only unlinked after `os.replace` has installed the destination. -/
theorem atomic_write_crash_safe (d : Dir) (running dest tmp c0 content : Str)
    (hrun : lookupD d running = some c0)
    (htr : tmp ≠ running) (hdr : dest ≠ running) (htd : tmp ≠ dest) :
    (∀ ops, ops <+: failOps running dest tmp content →
      lookupD (applyOps d ops) running = some c0 ∨
      (lookupD (applyOps d ops) dest).isSome) ∧
    (∀ ops, ops <+: failOpsWriteError tmp →
      lookupD (applyOps d ops) running = some c0) := by
  have hins1 : lookupD (insertD d tmp []) running = some c0 := by
    rw [lookupD_insert_ne _ _ _ _ (fun h => htr h.symm)]
    exact hrun
  have hins2 : lookupD (insertD (insertD d tmp []) tmp content) running = some c0 := by
    rw [lookupD_insert_ne _ _ _ _ (fun h => htr h.symm)]
    exact hins1
  constructor
  · intro ops hpre
    obtain ⟨t, ht⟩ := hpre
    have hlen : ops.length ≤ 4 := by
      have := congrArg List.length ht
      simp [failOps] at this
      omega
    rcases ops with _ | ⟨o1, _ | ⟨o2, _ | ⟨o3, _ | ⟨o4, rest⟩⟩⟩⟩
    · left
      exact hrun
    · simp only [failOps, List.cons_append, List.nil_append, List.cons.injEq] at ht
      obtain ⟨h1, _⟩ := ht
      subst h1
      left
      simpa [applyOps, applyOp] using hins1
    · simp only [failOps, List.cons_append, List.nil_append, List.cons.injEq] at ht
      obtain ⟨h1, h2, _⟩ := ht
      subst h1; subst h2
      left
      simpa [applyOps, applyOp] using hins2
    · simp only [failOps, List.cons_append, List.nil_append, List.cons.injEq] at ht
      obtain ⟨h1, h2, h3, _⟩ := ht
      subst h1; subst h2; subst h3
      right
      have hren : renameD (insertD (insertD d tmp []) tmp content) tmp dest =
          some (insertD (eraseD (insertD (insertD d tmp []) tmp content) tmp) dest content) := by
        unfold renameD
        rw [lookupD_insert_self]
      simp only [applyOps, List.foldl, applyOp, hren, lookupD_insert_self, Option.isSome_some]
    · simp only [failOps, List.cons_append, List.nil_append, List.cons.injEq] at ht
      obtain ⟨h1, h2, h3, h4, h5⟩ := ht
      have hrest : rest = [] := by
        cases rest with
        | nil => rfl
        | cons a b => simp at h5
      subst h1; subst h2; subst h3; subst h4; subst hrest
      right
      have hren : renameD (insertD (insertD d tmp []) tmp content) tmp dest =
          some (insertD (eraseD (insertD (insertD d tmp []) tmp content) tmp) dest content) := by
        unfold renameD
        rw [lookupD_insert_self]
      simp only [applyOps, List.foldl, applyOp, hren]
      rw [lookupD_erase_ne _ _ _ hdr, lookupD_insert_self]
      rfl
  · intro ops hpre
    obtain ⟨t, ht⟩ := hpre
    rcases ops with _ | ⟨o1, _ | ⟨o2, rest⟩⟩
    · exact hrun
    · simp only [failOpsWriteError, List.cons_append, List.nil_append,
        List.cons.injEq] at ht
      obtain ⟨h1, _⟩ := ht
      subst h1
      simpa [applyOps, applyOp] using hins1
    · simp only [failOpsWriteError, List.cons_append, List.nil_append,
        List.cons.injEq] at ht
      obtain ⟨h1, h2, h3⟩ := ht
      have hrest : rest = [] := by
        cases rest with
        | nil => rfl
        | cons a b => simp at h3
      subst h1; subst h2; subst hrest
      simp only [applyOps, List.foldl, applyOp]
      rw [show lookupD (eraseD (insertD d tmp []) tmp) running = lookupD (insertD d tmp []) running
        from lookupD_erase_ne _ _ _ (fun h => htr h.symm)]
      exact hins1

/-- Witness for C4 at a concrete directory state. -/
theorem atomic_write_crash_safe_witness :
    lookupD [(str "001_a.md.running.w0", str "task")] (str "001_a.md.running.w0") =
      some (str "task") ∧
    (∀ ops, ops <+: failOps (str "001_a.md.running.w0") (str "001_a.md") (str "tmp0")
        (str "new content") →
      lookupD (applyOps [(str "001_a.md.running.w0", str "task")] ops)
        (str "001_a.md.running.w0") = some (str "task") ∨
      (lookupD (applyOps [(str "001_a.md.running.w0", str "task")] ops)
        (str "001_a.md")).isSome) := by
  refine ⟨by decide, ?_⟩
  exact (atomic_write_crash_safe [(str "001_a.md.running.w0", str "task")]
    (str "001_a.md.running.w0") (str "001_a.md") (str "tmp0") (str "task")
    (str "new content") (by decide) (by decide) (by decide) (by decide)).1

/-! ## C1: the claim path -/

theorem renameD_some_inv {d : Dir} {s t : Str} {d' : Dir}
    (h : renameD d s t = some d') :
    ∃ c, lookupD d s = some c ∧ d' = insertD (eraseD d s) t c := by
  unfold renameD at h
  split at h
  · cases h
  · rename_i c hc
    exact ⟨c, hc, (Option.some_inj.mp h).symm⟩

theorem renameD_eq_some {d : Dir} {s : Str} {c : Str} (h : lookupD d s = some c)
    (t : Str) : renameD d s t = some (insertD (eraseD d s) t c) := by
  unfold renameD
  rw [h]

theorem keys_eraseD (d : Dir) (n : Str) :
    (eraseD d n).map Prod.fst = (d.map Prod.fst).filter (fun k => decide (k ≠ n)) := by
  induction d with
  | nil => rfl
  | cons p rest ih =>
    by_cases hp : p.1 = n
    · rw [show p = (p.1, p.2) from rfl, eraseD_cons_self _ _ hp]
      simp [List.filter_cons, hp, ih]
    · rw [show p = (p.1, p.2) from rfl, eraseD_cons_ne _ _ hp]
      simp [List.filter_cons, hp, ih]

theorem ne_runningName (first wid : Str) : first ≠ runningName first wid := by
  intro h
  have := congrArg List.length h
  simp [runningName, str] at this

theorem stem_append_md (u : Str) : stem (u ++ str ".md") = u := by
  unfold stem
  rw [show (u ++ str ".md").reverse = 'd' :: 'm' :: '.' :: u.reverse from by
    simp [str, List.reverse_append]]
  rw [show List.dropWhile (fun c => decide (c ≠ '.')) ('d' :: 'm' :: '.' :: u.reverse) =
    '.' :: u.reverse from by simp [List.dropWhile]]
  simp

theorem md_decomp {s : Str} (h : str ".md" <:+ s) : s = stem s ++ str ".md" := by
  obtain ⟨u, hu⟩ := h
  rw [← hu, stem_append_md]

/-- Inversion of a successful `claim_next`. -/
theorem claimNext_some_inv {fs : FSt} {wid : Str} {t : TaskR} {fs' : FSt}
    (h : claimNext fs wid true = (some t, fs')) :
    ∃ first rest c,
      sortedStrs ((fs.tasks.map Prod.fst).filter globMD) = first :: rest ∧
      lookupD fs.tasks first = some c ∧
      t = ⟨runningName first wid, stem first, c, extractRetryCount c⟩ ∧
      ¬ maxTaskFileSize < utf8Size c ∧
      fs' = { fs with tasks := insertD (eraseD fs.tasks first) (runningName first wid) c } := by
  unfold claimNext at h
  split at h
  · simp at h
  rename_i first rest hsort
  rw [if_pos rfl] at h
  split at h
  · simp at h
  rename_i tasks' hren
  obtain ⟨c, hc, hd⟩ := renameD_some_inv hren
  subst hd
  split at h
  · simp at h
  rename_i content hcontent
  rw [lookupD_insert_self] at hcontent
  have hcc : content = c := (Option.some_inj.mp hcontent).symm
  subst hcc
  split at h
  · simp at h
  rename_i hsize
  simp only [Prod.mk.injEq, Option.some_inj] at h
  exact ⟨first, rest, content, hsort, hc, h.1.symm, hsize, h.2.symm⟩

/-- Forward evaluation of a successful `claim_next`. -/
theorem claimNext_eq_some {fs : FSt} {wid first : Str} {rest : List Str} {c : Str}
    (hsort : sortedStrs ((fs.tasks.map Prod.fst).filter globMD) = first :: rest)
    (hc : lookupD fs.tasks first = some c)
    (hsize : ¬ maxTaskFileSize < utf8Size c) :
    claimNext fs wid true =
      (some ⟨runningName first wid, stem first, c, extractRetryCount c⟩,
       { fs with tasks := insertD (eraseD fs.tasks first) (runningName first wid) c }) := by
  unfold claimNext
  simp only [hsort, eq_self_iff_true, if_true,
    renameD_eq_some hc (runningName first wid), lookupD_insert_self, if_neg hsize]

/-- C1: `claim_next` selects the lexicographically-least pending `*.md`
file and renames it to `<name>.md.running.<worker_id>`, recording content
and embedded retry count; a failed OS rename returns `none` with the state
unchanged (fail closed, no exception); for two successive claims on the
serialized state (the lock makes claims sequential) the second claim gets
a strictly greater pending name — in particular within one worker claims
ascend, and no pending file is ever claimed twice. -/
theorem claim_next_contract :
    (∀ fs wid t fs', claimNext fs wid true = (some t, fs') →
      ∃ first,
        globMD first = true ∧
        lookupD fs.tasks first = some t.content ∧
        (∀ p ∈ (fs.tasks.map Prod.fst).filter globMD, strLe first p = true) ∧
        t.path = runningName first wid ∧
        t.name = stem first ∧
        t.retries = extractRetryCount t.content ∧
        lookupD fs'.tasks t.path = some t.content ∧
        lookupD fs'.tasks first = none ∧
        fs'.done = fs.done ∧ fs'.failed = fs.failed) ∧
    (∀ fs wid, claimNext fs wid false = (none, fs)) ∧
    (∀ fs wid wid' t1 fs1 t2 fs2,
      globMD (runningName (t1.name ++ str ".md") wid) = false →
      claimNext fs wid true = (some t1, fs1) →
      claimNext fs1 wid' true = (some t2, fs2) →
      strLe (t1.name ++ str ".md") (t2.name ++ str ".md") = true ∧
      t1.name ≠ t2.name) := by
  have hmain : ∀ fs wid t fs', claimNext fs wid true = (some t, fs') →
      ∃ first,
        globMD first = true ∧
        lookupD fs.tasks first = some t.content ∧
        (∀ p ∈ (fs.tasks.map Prod.fst).filter globMD, strLe first p = true) ∧
        t.path = runningName first wid ∧
        t.name = stem first ∧
        t.retries = extractRetryCount t.content ∧
        lookupD fs'.tasks t.path = some t.content ∧
        lookupD fs'.tasks first = none ∧
        fs'.done = fs.done ∧ fs'.failed = fs.failed := by
    intro fs wid t fs' h
    obtain ⟨first, rest, c, hsort, hc, ht, hsize, hfs⟩ := claimNext_some_inv h
    obtain ⟨hmem, hmin⟩ := sortedStrs_head_min hsort
    refine ⟨first, (List.mem_filter.mp hmem).2, ?_, hmin, ?_, ?_, ?_, ?_, ?_, ?_, ?_⟩
    · rw [ht]
      exact hc
    · rw [ht]
    · rw [ht]
    · rw [ht]
    · rw [hfs, ht]
      exact lookupD_insert_self _ _ _
    · rw [hfs]
      simp only
      rw [lookupD_insert_ne _ _ _ _ (ne_runningName first wid), lookupD_erase_self]
    · rw [hfs]
    · rw [hfs]
  refine ⟨hmain, ?_, ?_⟩
  · intro fs wid
    unfold claimNext
    split
    · rfl
    · rw [if_neg (by simp)]
  · intro fs wid wid' t1 fs1 t2 fs2 hw h1 h2
    obtain ⟨f1, rest1, c1, hsort1, hc1, ht1, hsz1, hfs1⟩ := claimNext_some_inv h1
    obtain ⟨f2r, rest2, c2, hsort2, hc2, ht2, hsz2, hfs2⟩ := claimNext_some_inv h2
    obtain ⟨hmem1, hmin1⟩ := sortedStrs_head_min hsort1
    obtain ⟨hmem2, hmin2⟩ := sortedStrs_head_min hsort2
    have hg1 : globMD f1 = true := (List.mem_filter.mp hmem1).2
    have hmd1 : str ".md" <:+ f1 :=
      of_decide_eq_true ((Bool.and_eq_true _ _).mp hg1).1
    have hname1 : t1.name ++ str ".md" = f1 := by
      rw [ht1]
      exact (md_decomp hmd1).symm
    have hrun_not_md : globMD (runningName f1 wid) = false := by
      rw [hname1] at hw
      exact hw
    obtain ⟨hmem2k, hg2⟩ := List.mem_filter.mp hmem2
    have hmd2 : str ".md" <:+ f2r :=
      of_decide_eq_true ((Bool.and_eq_true _ _).mp hg2).1
    have hf2_ne_run : f2r ≠ runningName f1 wid := by
      intro hc
      rw [hc, hrun_not_md] at hg2
      cases hg2
    have hmem2fs : f2r ∈ fs.tasks.map Prod.fst ∧ f2r ≠ f1 := by
      rw [hfs1] at hmem2k
      simp only [insertD, List.map_cons, List.mem_cons] at hmem2k
      rcases hmem2k with hc | hc
      · exact absurd hc hf2_ne_run
      · rw [keys_eraseD, keys_eraseD] at hc
        have h1m := List.mem_filter.mp hc
        have h2m := List.mem_filter.mp h1m.1
        exact ⟨h2m.1, of_decide_eq_true h2m.2⟩
    have hle : strLe f1 f2r = true := by
      apply hmin1
      exact List.mem_filter.mpr ⟨hmem2fs.1, hg2⟩
    have hname2 : t2.name ++ str ".md" = f2r := by
      rw [ht2]
      exact (md_decomp hmd2).symm
    constructor
    · rw [hname1, hname2]
      exact hle
    · intro hc
      apply hmem2fs.2
      rw [← hname2, ← hname1, hc]

/-- Witness for C1: two pending files, two successive claims by two
workers; ascending names, no double claim; a failed rename is a no-op. -/
theorem claim_next_contract_witness :
    claimNext ⟨[(str "001_a.md", str "a"), (str "002_b.md", str "b")], [], []⟩
      (str "w0") true =
      (some ⟨str "001_a.md.running.w0", str "001_a", str "a", 0⟩,
       ⟨[(str "001_a.md.running.w0", str "a"), (str "002_b.md", str "b")], [], []⟩) ∧
    claimNext ⟨[(str "001_a.md.running.w0", str "a"), (str "002_b.md", str "b")], [], []⟩
      (str "w1") true =
      (some ⟨str "002_b.md.running.w1", str "002_b", str "b", 0⟩,
       ⟨[(str "002_b.md.running.w1", str "b"), (str "001_a.md.running.w0", str "a")],
        [], []⟩) ∧
    strLe (str "001_a" ++ str ".md") (str "002_b" ++ str ".md") = true ∧
    (str "001_a" : Str) ≠ str "002_b" ∧
    claimNext ⟨[(str "001_a.md", str "a")], [], []⟩ (str "w0") false =
      (none, ⟨[(str "001_a.md", str "a")], [], []⟩) := by
  have e1 : claimNext ⟨[(str "001_a.md", str "a"), (str "002_b.md", str "b")], [], []⟩
      (str "w0") true =
      (some ⟨str "001_a.md.running.w0", str "001_a", str "a", 0⟩,
       ⟨[(str "001_a.md.running.w0", str "a"), (str "002_b.md", str "b")], [], []⟩) := rfl
  have e2 : claimNext
      ⟨[(str "001_a.md.running.w0", str "a"), (str "002_b.md", str "b")], [], []⟩
      (str "w1") true =
      (some ⟨str "002_b.md.running.w1", str "002_b", str "b", 0⟩,
       ⟨[(str "002_b.md.running.w1", str "b"), (str "001_a.md.running.w0", str "a")],
        [], []⟩) := rfl
  have h := claim_next_contract.2.2 _ _ _ _ _ _ _ (by decide) e1 e2
  exact ⟨e1, e2, h.1, h.2, claim_next_contract.2.1 _ _⟩

/-! ## C6: crash recovery of running files -/

theorem lookupD_erase_none {d : Dir} {rn : Str} (h : lookupD d rn = none) (r : Str) :
    lookupD (eraseD d r) rn = none := by
  by_cases hr : rn = r
  · rw [hr]
    exact lookupD_erase_self d r
  · rw [lookupD_erase_ne _ _ _ hr]
    exact h

theorem beforeRunning_isPre (s : Str) : beforeRunning s <+: s := by
  induction s with
  | nil => exact ⟨[], rfl⟩
  | cons x xs ih =>
    unfold beforeRunning
    by_cases hpre : (str ".running.").isPrefixOf (x :: xs) = true
    · rw [if_pos hpre]
      exact ⟨x :: xs, rfl⟩
    · rw [if_neg hpre]
      obtain ⟨t, ht⟩ := ih
      exact ⟨t, by rw [List.cons_append, ht]⟩

theorem not_running_infix_beforeRunning (s : Str) :
    ¬ str ".running." <:+: beforeRunning s := by
  induction s with
  | nil => intro h; have := h.length_le; simp [beforeRunning, str] at this
  | cons x xs ih =>
    unfold beforeRunning
    by_cases hpre : (str ".running.").isPrefixOf (x :: xs) = true
    · rw [if_pos hpre]
      intro h
      have := h.length_le
      simp [str] at this
    · rw [if_neg hpre]
      intro h
      rcases List.infix_cons_iff.mp h with hp | hi
      · apply hpre
        rw [List.isPrefixOf_iff_prefix]
        refine hp.trans ?_
        obtain ⟨t, ht⟩ := beforeRunning_isPre xs
        exact ⟨t, by rw [List.cons_append, ht]⟩
      · exact ih hi

theorem globRunning_beforeRunning (s : Str) : globRunning (beforeRunning s) = false := by
  cases hg : globRunning (beforeRunning s)
  · rfl
  · exfalso
    have hinf : str ".md.running." <:+: beforeRunning s :=
      of_decide_eq_true ((Bool.and_eq_true _ _).mp hg).1
    apply not_running_infix_beforeRunning s
    exact List.IsInfix.trans (by decide) hinf

theorem beforeRunning_ne_self {r : Str} (h : globRunning r = true) :
    beforeRunning r ≠ r := by
  intro hc
  have := globRunning_beforeRunning r
  rw [hc, h] at this
  cases this

theorem recoverStep_conflict {k : Nat} {d : Dir} {r co : Str}
    (h : lookupD d (beforeRunning r) = some co) :
    recoverStep (k, d) r = (k + 1, eraseD d r) := by
  simp only [recoverStep, h]

theorem recoverStep_restore {k : Nat} {d : Dir} {r c : Str}
    (h : lookupD d (beforeRunning r) = none) (hc : lookupD d r = some c) :
    recoverStep (k, d) r = (k + 1, insertD (eraseD d r) (beforeRunning r) c) := by
  simp only [recoverStep, h, renameD_eq_some hc (beforeRunning r)]

/-- A step on a running name cannot make a running name present. -/
theorem recover_fold_no_create : ∀ (l : List Str) (k : Nat) (d : Dir) (rn : Str),
    globRunning rn = true → (∀ r ∈ l, globRunning r = true) → lookupD d rn = none →
    lookupD (l.foldl recoverStep (k, d)).2 rn = none := by
  intro l
  induction l with
  | nil => intro k d rn _ _ h; exact h
  | cons r rest ih =>
    intro k d rn hrn hglob hnone
    have horigne : rn ≠ beforeRunning r := by
      intro hc
      have := globRunning_beforeRunning r
      rw [← hc, hrn] at this
      cases this
    rw [List.foldl_cons]
    cases horig : lookupD d (beforeRunning r) with
    | some co =>
      rw [recoverStep_conflict horig]
      exact ih (k + 1) _ rn hrn (fun r' h => hglob r' (by simp [h]))
        (lookupD_erase_none hnone r)
    | none =>
      cases hc : lookupD d r with
      | none =>
        rw [show recoverStep (k, d) r = (k, d) from by
          simp only [recoverStep, horig]
          unfold renameD
          rw [hc]]
        exact ih k d rn hrn (fun r' h => hglob r' (by simp [h])) hnone
      | some c =>
        rw [recoverStep_restore horig hc]
        refine ih (k + 1) _ rn hrn (fun r' h => hglob r' (by simp [h])) ?_
        rw [lookupD_insert_ne _ _ _ _ horigne]
        exact lookupD_erase_none hnone r

/-- Non-running names present before recovery keep their content. -/
theorem recover_fold_preserve : ∀ (l : List Str) (k : Nat) (d : Dir) (p cp : Str),
    globRunning p = false → (∀ r ∈ l, globRunning r = true) → lookupD d p = some cp →
    lookupD (l.foldl recoverStep (k, d)).2 p = some cp := by
  intro l
  induction l with
  | nil => intro k d p cp _ _ h; exact h
  | cons r rest ih =>
    intro k d p cp hp hglob hcp
    have hpr : p ≠ r := by
      intro hc
      rw [hc, hglob r (by simp)] at hp
      cases hp
    rw [List.foldl_cons]
    cases horig : lookupD d (beforeRunning r) with
    | some co =>
      rw [recoverStep_conflict horig]
      refine ih (k + 1) _ p cp hp (fun r' h => hglob r' (by simp [h])) ?_
      rw [lookupD_erase_ne _ _ _ hpr]
      exact hcp
    | none =>
      cases hc : lookupD d r with
      | none =>
        rw [show recoverStep (k, d) r = (k, d) from by
          simp only [recoverStep, horig]
          unfold renameD
          rw [hc]]
        exact ih k d p cp hp (fun r' h => hglob r' (by simp [h])) hcp
      | some c =>
        have hporig : p ≠ beforeRunning r := by
          intro hcq
          rw [hcq, horig] at hcp
          cases hcp
        rw [recoverStep_restore horig hc]
        refine ih (k + 1) _ p cp hp (fun r' h => hglob r' (by simp [h])) ?_
        rw [lookupD_insert_ne _ _ _ _ hporig, lookupD_erase_ne _ _ _ hpr]
        exact hcp

/-- The recovery count: one per running file listed. -/
theorem recover_fold_count : ∀ (l : List Str) (k : Nat) (d : Dir),
    l.Nodup → (∀ r ∈ l, globRunning r = true) → (∀ r ∈ l, (lookupD d r).isSome) →
    (l.foldl recoverStep (k, d)).1 = k + l.length := by
  intro l
  induction l with
  | nil => intro k d _ _ _; simp
  | cons r rest ih =>
    intro k d hnd hglob hsome
    obtain ⟨hniq, hnd'⟩ := List.nodup_cons.mp hnd
    obtain ⟨c, hc⟩ := Option.isSome_iff_exists.mp (hsome r (by simp))
    have hrest_pres : ∀ d', (∀ r' ∈ rest, (lookupD d' r').isSome) →
        (rest.foldl recoverStep (k + 1, d')).1 = (k + 1) + rest.length := by
      intro d' hlook
      exact ih (k + 1) d' hnd' (fun r' h => hglob r' (by simp [h])) hlook
    rw [List.foldl_cons]
    cases horig : lookupD d (beforeRunning r) with
    | some co =>
      rw [recoverStep_conflict horig]
      rw [hrest_pres _ ?_]
      · simp only [List.length_cons]
        omega
      · intro r' hr'
        rw [lookupD_erase_ne _ _ _ (fun hc2 : r' = r => hniq (by rw [← hc2]; exact hr'))]
        exact hsome r' (by simp [hr'])
    | none =>
      rw [recoverStep_restore horig hc]
      rw [hrest_pres _ ?_]
      · simp only [List.length_cons]
        omega
      · intro r' hr'
        have h1 : r' ≠ beforeRunning r := by
          intro hc2
          have := globRunning_beforeRunning r
          rw [← hc2, hglob r' (by simp [hr'])] at this
          cases this
        rw [lookupD_insert_ne _ _ _ _ h1,
          lookupD_erase_ne _ _ _ (fun hc2 : r' = r => hniq (by rw [← hc2]; exact hr'))]
        exact hsome r' (by simp [hr'])

/-- After recovery no listed running file remains. -/
theorem recover_fold_clears : ∀ (l : List Str) (k : Nat) (d : Dir),
    l.Nodup → (∀ r ∈ l, globRunning r = true) →
    ∀ rn ∈ l, lookupD (l.foldl recoverStep (k, d)).2 rn = none := by
  intro l
  induction l with
  | nil => intro k d _ _ rn h; cases h
  | cons r rest ih =>
    intro k d hnd hglob rn hrn
    obtain ⟨hniq, hnd'⟩ := List.nodup_cons.mp hnd
    rcases List.mem_cons.mp hrn with heq | hmem
    · subst heq
      rw [List.foldl_cons]
      have hgr : globRunning rn = true := hglob rn (by simp)
      have hclear : ∀ d₂ : Dir, lookupD d₂ rn = none →
          lookupD (rest.foldl recoverStep (k + 1, d₂)).2 rn = none := by
        intro d₂ h₂
        exact recover_fold_no_create rest (k + 1) d₂ rn hgr
          (fun r' h => hglob r' (by simp [h])) h₂
      cases horig : lookupD d (beforeRunning rn) with
      | some co =>
        rw [recoverStep_conflict horig]
        exact hclear _ (lookupD_erase_self d rn)
      | none =>
        cases hc : lookupD d rn with
        | none =>
          rw [show recoverStep (k, d) rn = (k, d) from by
            simp only [recoverStep, horig]
            unfold renameD
            rw [hc]]
          exact recover_fold_no_create rest k d rn hgr
            (fun r' h => hglob r' (by simp [h])) hc
        | some c =>
          rw [recoverStep_restore horig hc]
          apply hclear
          rw [lookupD_insert_ne _ _ _ _ (fun h2 => (beforeRunning_ne_self hgr) h2.symm)]
          exact lookupD_erase_self d rn
    · rw [List.foldl_cons]
      cases horig : lookupD d (beforeRunning r) with
      | some co =>
        rw [recoverStep_conflict horig]
        exact ih (k + 1) _ hnd' (fun r' h => hglob r' (by simp [h])) rn hmem
      | none =>
        cases hc : lookupD d r with
        | none =>
          rw [show recoverStep (k, d) r = (k, d) from by
            simp only [recoverStep, horig]
            unfold renameD
            rw [hc]]
          exact ih k d hnd' (fun r' h => hglob r' (by simp [h])) rn hmem
        | some c =>
          rw [recoverStep_restore horig hc]
          exact ih (k + 1) _ hnd' (fun r' h => hglob r' (by simp [h])) rn hmem

/-- A running file whose pending name is free, and whose pending name no
other listed running file shares, is restored with its content intact. -/
theorem recover_fold_restores : ∀ (l : List Str) (k : Nat) (d : Dir) (r c : Str),
    l.Nodup → (∀ r' ∈ l, globRunning r' = true) → r ∈ l →
    lookupD d r = some c → lookupD d (beforeRunning r) = none →
    (∀ r' ∈ l, r' ≠ r → beforeRunning r' ≠ beforeRunning r) →
    lookupD (l.foldl recoverStep (k, d)).2 (beforeRunning r) = some c := by
  intro l
  induction l with
  | nil => intro k d r c _ _ h; cases h
  | cons r0 rest ih =>
    intro k d r c hnd hglob hmem hc horigfree huniq
    obtain ⟨hniq, hnd'⟩ := List.nodup_cons.mp hnd
    rcases List.mem_cons.mp hmem with heq | hmem'
    · subst heq
      rw [List.foldl_cons, recoverStep_restore horigfree hc]
      apply recover_fold_preserve rest (k + 1) _ _ _
        (globRunning_beforeRunning r) (fun r' h => hglob r' (by simp [h]))
      exact lookupD_insert_self _ _ _
    · have hr0ne : r0 ≠ r := by
        intro hcq
        rw [hcq] at hniq
        exact hniq hmem'
      have horigne : beforeRunning r0 ≠ beforeRunning r :=
        huniq r0 (by simp) hr0ne
      rw [List.foldl_cons]
      cases horig : lookupD d (beforeRunning r0) with
      | some co =>
        rw [recoverStep_conflict horig]
        refine ih (k + 1) _ r c hnd' (fun r' h => hglob r' (by simp [h])) hmem' ?_ ?_
          (fun r' h hne => huniq r' (by simp [h]) hne)
        · rw [lookupD_erase_ne _ _ _ hr0ne.symm]
          exact hc
        · exact lookupD_erase_none horigfree r0
      | none =>
        cases hc0 : lookupD d r0 with
        | none =>
          rw [show recoverStep (k, d) r0 = (k, d) from by
            simp only [recoverStep, horig]
            unfold renameD
            rw [hc0]]
          exact ih k d r c hnd' (fun r' h => hglob r' (by simp [h])) hmem' hc horigfree
            (fun r' h hne => huniq r' (by simp [h]) hne)
        | some c0 =>
          rw [recoverStep_restore horig hc0]
          refine ih (k + 1) _ r c hnd' (fun r' h => hglob r' (by simp [h])) hmem' ?_ ?_
            (fun r' h hne => huniq r' (by simp [h]) hne)
          · have h1 : r ≠ beforeRunning r0 := by
              intro hcq
              have := globRunning_beforeRunning r0
              rw [← hcq, hglob r (by simp [hmem'])] at this
              cases this
            rw [lookupD_insert_ne _ _ _ _ h1, lookupD_erase_ne _ _ _ hr0ne.symm]
            exact hc
          · rw [lookupD_insert_ne _ _ _ _ horigne.symm]
            exact lookupD_erase_none horigfree r0

theorem beforeRunning_canonical {nm : Str} (h : '.' ∉ nm) (w : Str) :
    beforeRunning (nm ++ str ".md.running." ++ w) = nm ++ str ".md" := by
  induction nm with
  | nil =>
    show beforeRunning (str ".md.running." ++ w) = str ".md"
    have hpre_self : ∀ p t : Str, p.isPrefixOf (p ++ t) = true := by
      intro p t
      rw [List.isPrefixOf_iff_prefix]
      exact ⟨t, rfl⟩
    have h1 : (str ".running.").isPrefixOf
        ('.' :: 'm' :: 'd' :: (str ".running." ++ w)) = false := rfl
    have h2 : (str ".running.").isPrefixOf
        ('m' :: 'd' :: (str ".running." ++ w)) = false := rfl
    have h3 : (str ".running.").isPrefixOf ('d' :: (str ".running." ++ w)) = false := rfl
    rw [show str ".md.running." ++ w = '.' :: 'm' :: 'd' :: (str ".running." ++ w)
      from rfl]
    rw [beforeRunning]
    rw [if_neg (by rw [h1]; exact Bool.false_ne_true)]
    rw [beforeRunning]
    rw [if_neg (by rw [h2]; exact Bool.false_ne_true)]
    rw [beforeRunning]
    rw [if_neg (by rw [h3]; exact Bool.false_ne_true)]
    rw [show str ".running." ++ w = '.' :: (str "running." ++ w) from rfl]
    rw [beforeRunning]
    rw [if_pos (by
      rw [show ('.' :: (str "running." ++ w)) = str ".running." ++ w from rfl]
      exact hpre_self _ _)]
    rfl
  | cons x xs ih =>
    have hx : x ≠ '.' := fun hc => h (by rw [hc]; simp)
    have hx2 : '.' ∉ xs := fun hc => h (by simp [hc])
    have hpre : (str ".running.").isPrefixOf
        (x :: (xs ++ str ".md.running." ++ w)) = false := by
      have : (str ".running.") = '.' :: str "running." := rfl
      rw [this]
      simp only [List.isPrefixOf]
      rw [show (('.' : Char) == x) = false from beq_eq_false_iff_ne.mpr (Ne.symm hx)]
      rfl
    show beforeRunning (x :: (xs ++ str ".md.running." ++ w)) = x :: (xs ++ str ".md")
    unfold beforeRunning
    rw [if_neg (by rw [hpre]; exact fun hc => Bool.false_ne_true hc)]
    rw [show xs ++ str ".md.running." ++ w = xs ++ str ".md.running." ++ w from rfl]
    rw [ih hx2]

/-- C6: `recover_running` renames every leftover `*.md.running.*` file
back to its pending name (the part before the first `.running.`, which for
a canonically-named running file `<nm>.md.running.<wid>` is `<nm>.md`);
when the pending name already exists its content is kept and the orphaned
running file is discarded; the returned count covers every running file
handled; and a restored file carries its original content — hence the
same embedded retry count — and is a pending `.md` file again. -/
theorem recover_running_contract (fs : FSt)
    (hnd : (fs.tasks.map Prod.fst).Nodup) :
    ((recoverRunning fs).1 =
      (sortedStrs ((fs.tasks.map Prod.fst).filter globRunning)).length) ∧
    (∀ r ∈ sortedStrs ((fs.tasks.map Prod.fst).filter globRunning),
      lookupD (recoverRunning fs).2.tasks r = none) ∧
    (∀ p cp, globRunning p = false → lookupD fs.tasks p = some cp →
      lookupD (recoverRunning fs).2.tasks p = some cp) ∧
    (∀ r c, r ∈ sortedStrs ((fs.tasks.map Prod.fst).filter globRunning) →
      lookupD fs.tasks r = some c →
      lookupD fs.tasks (beforeRunning r) = none →
      (∀ r' ∈ sortedStrs ((fs.tasks.map Prod.fst).filter globRunning),
        r' ≠ r → beforeRunning r' ≠ beforeRunning r) →
      lookupD (recoverRunning fs).2.tasks (beforeRunning r) = some c) ∧
    (∀ nm w, '.' ∉ nm →
      beforeRunning (nm ++ str ".md.running." ++ w) = nm ++ str ".md") := by
  have hperm := List.perm_insertionSort (fun a b : Str => strLe a b = true)
    ((fs.tasks.map Prod.fst).filter globRunning)
  have hruns_nodup : (sortedStrs ((fs.tasks.map Prod.fst).filter globRunning)).Nodup :=
    hperm.nodup_iff.mpr (hnd.filter _)
  have hruns_glob : ∀ r ∈ sortedStrs ((fs.tasks.map Prod.fst).filter globRunning),
      globRunning r = true := by
    intro r hr
    exact (List.mem_filter.mp (hperm.mem_iff.mp hr)).2
  have hruns_some : ∀ r ∈ sortedStrs ((fs.tasks.map Prod.fst).filter globRunning),
      (lookupD fs.tasks r).isSome := by
    intro r hr
    exact lookupD_isSome_of_mem_keys (List.mem_filter.mp (hperm.mem_iff.mp hr)).1
  refine ⟨?_, ?_, ?_, ?_, fun nm w h => beforeRunning_canonical h w⟩
  · have := recover_fold_count
      (sortedStrs ((fs.tasks.map Prod.fst).filter globRunning)) 0 fs.tasks
      hruns_nodup hruns_glob hruns_some
    simpa [recoverRunning] using this
  · intro r hr
    have := recover_fold_clears
      (sortedStrs ((fs.tasks.map Prod.fst).filter globRunning)) 0 fs.tasks
      hruns_nodup hruns_glob r hr
    simpa [recoverRunning] using this
  · intro p cp hp hcp
    have := recover_fold_preserve
      (sortedStrs ((fs.tasks.map Prod.fst).filter globRunning)) 0 fs.tasks p cp
      hp hruns_glob hcp
    simpa [recoverRunning] using this
  · intro r c hr hc hfree huniq
    have := recover_fold_restores
      (sortedStrs ((fs.tasks.map Prod.fst).filter globRunning)) 0 fs.tasks r c
      hruns_nodup hruns_glob hr hc hfree huniq
    simpa [recoverRunning] using this

/-- Witness for C6: one orphaned running file is restored with content
intact, one conflicting running file is discarded while the existing
pending file keeps its content; the count covers both. -/
theorem recover_running_contract_witness :
    (recoverRunning ⟨[(str "001_t.md.running.w0", str "task"),
       (str "002_u.md", str "orig"), (str "002_u.md.running.w1", str "dup")],
       [], []⟩).1 = 2 ∧
    lookupD (recoverRunning ⟨[(str "001_t.md.running.w0", str "task"),
       (str "002_u.md", str "orig"), (str "002_u.md.running.w1", str "dup")],
       [], []⟩).2.tasks (str "001_t.md") = some (str "task") ∧
    lookupD (recoverRunning ⟨[(str "001_t.md.running.w0", str "task"),
       (str "002_u.md", str "orig"), (str "002_u.md.running.w1", str "dup")],
       [], []⟩).2.tasks (str "002_u.md") = some (str "orig") ∧
    lookupD (recoverRunning ⟨[(str "001_t.md.running.w0", str "task"),
       (str "002_u.md", str "orig"), (str "002_u.md.running.w1", str "dup")],
       [], []⟩).2.tasks (str "001_t.md.running.w0") = none := by
  have h := recover_running_contract ⟨[(str "001_t.md.running.w0", str "task"),
    (str "002_u.md", str "orig"), (str "002_u.md.running.w1", str "dup")], [], []⟩
    (by decide)
  refine ⟨h.1, ?_, ?_, ?_⟩
  · have := h.2.2.2.1 (str "001_t.md.running.w0") (str "task") (by decide) (by decide)
      (by decide) (by decide)
    rwa [show beforeRunning (str "001_t.md.running.w0") = str "001_t.md" from by decide]
      at this
  · exact h.2.2.1 (str "002_u.md") (str "orig") (by decide) (by decide)
  · exact h.2.1 (str "001_t.md.running.w0") (by decide)

/-! ## C5: oversized files and claim races -/

theorem utf8Size_replicate (n : Nat) (c : Char) :
    utf8Size (List.replicate n c) = n * utf8Sz c := by
  induction n with
  | zero => simp [utf8Size]
  | succ k ih =>
    rw [List.replicate_succ]
    unfold utf8Size at ih ⊢
    rw [List.map_cons, List.sum_cons, ih, Nat.succ_mul]
    omega

/-- `claim_next` on an oversized head-of-queue file: the rename has
already happened when the size check fires, so the file is left in
running form and `None` is returned. -/
theorem claimNext_oversized {fs : FSt} {wid first : Str} {rest : List Str} {c : Str}
    (hsort : sortedStrs ((fs.tasks.map Prod.fst).filter globMD) = first :: rest)
    (hc : lookupD fs.tasks first = some c)
    (hsize : maxTaskFileSize < utf8Size c) :
    claimNext fs wid true =
      (none, { fs with tasks := insertD (eraseD fs.tasks first) (runningName first wid) c }) := by
  unfold claimNext
  simp only [hsort, eq_self_iff_true, if_true,
    renameD_eq_some hc (runningName first wid), lookupD_insert_self, if_pos hsize]

/-- C5 counterexample: the claim says an oversized pending file "stays in
pending form"; in the code the rename precedes the size check, so after
`claim_next` the oversized file exists under its running name and the
pending name is gone. -/
theorem oversized_file_left_running :
    (claimNext ⟨[(str "001_big.md", List.replicate (maxTaskFileSize + 1) 'x')], [], []⟩
      (str "w0") true).1 = none ∧
    lookupD (claimNext ⟨[(str "001_big.md", List.replicate (maxTaskFileSize + 1) 'x')],
        [], []⟩ (str "w0") true).2.tasks
      (str "001_big.md.running.w0") = some (List.replicate (maxTaskFileSize + 1) 'x') ∧
    lookupD (claimNext ⟨[(str "001_big.md", List.replicate (maxTaskFileSize + 1) 'x')],
        [], []⟩ (str "w0") true).2.tasks (str "001_big.md") = none := by
  have hsize : maxTaskFileSize < utf8Size (List.replicate (maxTaskFileSize + 1) 'x') := by
    rw [utf8Size_replicate]
    have : utf8Sz 'x' = 1 := by decide
    rw [this]
    omega
  have hclaim := @claimNext_oversized
    ⟨[(str "001_big.md", List.replicate (maxTaskFileSize + 1) 'x')], [], []⟩
    (str "w0") (str "001_big.md") []
    (List.replicate (maxTaskFileSize + 1) 'x') rfl rfl hsize
  rw [hclaim]
  refine ⟨rfl, ?_, ?_⟩
  · exact lookupD_insert_self _ _ _
  · rw [lookupD_insert_ne _ _ _ _ (ne_runningName _ _), lookupD_erase_self]

/-- C5 amended: an oversized pending file is not claimed — `claim_next`
returns `none` — but it is left in running form (the rename precedes the
size check), not pending form; a claim race (failed rename) is a no-op
returning `none`; and the worker loop treats every `none` from
`claim_next` — empty queue, lost race, or oversized file — as a reason to
exit, so the remaining pending tasks are not processed by this loop. -/
theorem claim_none_paths :
    (∀ fs wid first rest c,
      sortedStrs ((fs.tasks.map Prod.fst).filter globMD) = first :: rest →
      lookupD fs.tasks first = some c →
      maxTaskFileSize < utf8Size c →
      (claimNext fs wid true).1 = none ∧
      lookupD (claimNext fs wid true).2.tasks (runningName first wid) = some c ∧
      lookupD (claimNext fs wid true).2.tasks first = none) ∧
    (∀ fs wid, claimNext fs wid false = (none, fs)) ∧
    (∀ wid m env fuel fs fs',
      (env 0).shutdownAtTop = false →
      claimNext fs wid (env 0).renameOk = (none, fs') →
      workerLoopF wid m env (fuel + 1) fs = (LoopExit.queueEmpty, fs')) := by
  refine ⟨?_, claim_next_contract.2.1, ?_⟩
  · intro fs wid first rest c hsort hc hsize
    rw [claimNext_oversized hsort hc hsize]
    refine ⟨rfl, lookupD_insert_self _ _ _, ?_⟩
    rw [lookupD_insert_ne _ _ _ _ (ne_runningName _ _), lookupD_erase_self]
  · intro wid m env fuel fs fs' hshut hclaim
    unfold workerLoopF
    simp only [hshut, hclaim, Bool.false_eq_true, if_false]

/-- Witness for C5's amended theorem at a concrete oversized file. -/
theorem claim_none_paths_witness :
    ((claimNext ⟨[(str "002_big.md", List.replicate (maxTaskFileSize + 1) 'y')], [], []⟩
        (str "w1") true).1 = none ∧
      lookupD (claimNext ⟨[(str "002_big.md",
          List.replicate (maxTaskFileSize + 1) 'y')], [], []⟩ (str "w1") true).2.tasks
        (runningName (str "002_big.md") (str "w1")) =
        some (List.replicate (maxTaskFileSize + 1) 'y') ∧
      lookupD (claimNext ⟨[(str "002_big.md",
          List.replicate (maxTaskFileSize + 1) 'y')], [], []⟩ (str "w1") true).2.tasks
        (str "002_big.md") = none) ∧
    workerLoopF (str "w1") 2 (fun _ => ⟨false, false, true, [], false, [], []⟩) 5
      ⟨[(str "001_a.md", str "a")], [], []⟩ =
      (LoopExit.queueEmpty, ⟨[(str "001_a.md", str "a")], [], []⟩) := by
  constructor
  · apply claim_none_paths.1
      ⟨[(str "002_big.md", List.replicate (maxTaskFileSize + 1) 'y')], [], []⟩
      (str "w1") (str "002_big.md") [] (List.replicate (maxTaskFileSize + 1) 'y')
      rfl rfl
    rw [utf8Size_replicate, show utf8Sz 'y' = 1 from by decide]
    omega
  · exact claim_none_paths.2.2 (str "w1") 2 _ 4
      ⟨[(str "001_a.md", str "a")], [], []⟩ ⟨[(str "001_a.md", str "a")], [], []⟩ rfl rfl

/-! ## C3: bounded retry until exhaustion -/

theorem matchRetryAt_cons_ne {c : Char} (xs : Str) (h : c ≠ '<') :
    matchRetryAt (c :: xs) = none := by
  unfold matchRetryAt
  rw [show str "<!--" = '<' :: str "!--" from rfl]
  rw [show litM ('<' :: str "!--") (c :: xs) = none from by
    unfold litM
    rw [if_neg h]]

theorem searchRetry_cons_none {c : Char} {xs : Str} (h : matchRetryAt (c :: xs) = none) :
    searchRetry (c :: xs) = searchRetry xs := by
  simp only [searchRetry, h]

theorem searchRetry_append_nolt {p : Str} (xs : Str) (h : '<' ∉ p) :
    searchRetry (p ++ xs) = searchRetry xs := by
  induction p with
  | nil => rfl
  | cons a p' ih =>
    have ha : a ≠ '<' := fun hc => h (by rw [hc]; simp)
    rw [List.cons_append, searchRetry_cons_none (matchRetryAt_cons_ne _ ha)]
    exact ih (fun hc => h (by simp [hc]))

theorem matchRetryAt_failedHdr (Y : Str) :
    matchRetryAt ('<' :: (str "!-- FAILED at " ++ Y)) = none := rfl

theorem matchRetryAt_errorHdr (Y : Str) :
    matchRetryAt ('<' :: (str "!-- Error: " ++ Y)) = none := rfl

/-- The requeue failure header contains no `_RETRY_PATTERN` match as long
as the timestamp and the error text contain no `<`, so the leftmost
marker of the requeued content is the one written by `_set_retry_count`. -/
theorem searchRetry_failHeaderRetry (tsIso err X : Str) (h1 : '<' ∉ tsIso)
    (h2 : '<' ∉ err) :
    searchRetry (failHeaderRetry tsIso err ++ X) = searchRetry X := by
  have e : failHeaderRetry tsIso err ++ X =
      '<' :: (str "!-- FAILED at " ++ (tsIso ++ (str " -->\n" ++
        ('<' :: (str "!-- Error: " ++ (err ++ (str " -->\n" ++ X))))))) := by
    simp [failHeaderRetry, str, List.append_assoc]
  rw [e, searchRetry_cons_none (matchRetryAt_failedHdr _),
    searchRetry_append_nolt _ (by decide),
    searchRetry_append_nolt _ h1,
    searchRetry_append_nolt _ (by decide),
    searchRetry_cons_none (matchRetryAt_errorHdr _),
    searchRetry_append_nolt _ (by decide),
    searchRetry_append_nolt _ h2,
    searchRetry_append_nolt _ (by decide)]

theorem extract_requeued (c : Str) (k : Nat) (tsIso err : Str) (h1 : '<' ∉ tsIso)
    (h2 : '<' ∉ err) :
    extractRetryCount (failHeaderRetry tsIso err ++ setRetryCount c (k + 1)) = k + 1 := by
  unfold extractRetryCount
  rw [searchRetry_failHeaderRetry _ _ _ h1 h2, searchRetry_setRetryCount]

theorem eraseD_single_self (k v : Str) : eraseD [(k, v)] k = [] := by
  rw [eraseD_cons_self v [] rfl]
  rfl

theorem eraseD_single_ne (k v n : Str) (h : k ≠ n) : eraseD [(k, v)] n = [(k, v)] := by
  rw [eraseD_cons_ne v [] h]
  rfl

theorem sortedStrs_singleton_glob {x : Str} (c : Str) (hx : globMD x = true) :
    sortedStrs ((([(x, c)] : Dir).map Prod.fst).filter globMD) = [x] := by
  simp only [List.map_cons, List.map_nil, List.filter_cons, hx, if_true, List.filter_nil]
  rfl

/-- One claim-then-fail round below the retry limit requeues the task with
an updated marker and failure header. -/
theorem claimFailRound_requeue {nm c : Str} {k m : Nat} (wid err tsName tsIso : Str)
    (done0 fail0 : Dir)
    (hglob : globMD (nm ++ str ".md") = true)
    (hx : extractRetryCount c = k)
    (hsz : ¬ maxTaskFileSize < utf8Size c)
    (hlt : k + 1 < m) :
    claimFailRound wid err tsName tsIso m ⟨[(nm ++ str ".md", c)], done0, fail0⟩ =
      ⟨[(nm ++ str ".md", failHeaderRetry tsIso err ++ setRetryCount c (k + 1))],
       done0, fail0⟩ := by
  unfold claimFailRound
  rw [@claimNext_eq_some ⟨[(nm ++ str ".md", c)], done0, fail0⟩ wid (nm ++ str ".md")
    [] c (sortedStrs_singleton_glob c hglob) (by simp [lookupD]) hsz]
  unfold failQ
  simp only [stem_append_md, hx, if_pos hlt]
  congr 1
  rw [eraseD_single_self]
  rw [show insertD ([] : Dir) (runningName (nm ++ str ".md") wid) c =
    [(runningName (nm ++ str ".md") wid, c)] from rfl]
  rw [show insertD [(runningName (nm ++ str ".md") wid, c)] (nm ++ str ".md")
      (failHeaderRetry tsIso err ++ setRetryCount c (k + 1)) =
    (nm ++ str ".md", failHeaderRetry tsIso err ++ setRetryCount c (k + 1)) ::
      [(runningName (nm ++ str ".md") wid, c)] from by
    unfold insertD
    rw [eraseD_single_ne _ _ _ (Ne.symm (ne_runningName _ _))]]
  rw [eraseD_cons_ne _ _ (ne_runningName _ _), eraseD_single_self]

/-- The exhausting round: at the retry limit the task moves to `failed/`
with the terminal header recording `newRetries/maxRetries`. -/
theorem claimFailRound_final {nm c : Str} {k m : Nat} (wid err tsName tsIso : Str)
    (done0 fail0 : Dir)
    (hglob : globMD (nm ++ str ".md") = true)
    (hx : extractRetryCount c = k)
    (hsz : ¬ maxTaskFileSize < utf8Size c)
    (hge : ¬ k + 1 < m) :
    claimFailRound wid err tsName tsIso m ⟨[(nm ++ str ".md", c)], done0, fail0⟩ =
      ⟨[], done0, insertD fail0 (tsName ++ '_' :: (nm ++ str ".md"))
        (failHeaderFinal tsIso err (k + 1) m ++ c)⟩ := by
  unfold claimFailRound
  rw [@claimNext_eq_some ⟨[(nm ++ str ".md", c)], done0, fail0⟩ wid (nm ++ str ".md")
    [] c (sortedStrs_singleton_glob c hglob) (by simp [lookupD]) hsz]
  unfold failQ
  simp only [stem_append_md, hx, if_neg hge]
  congr 1
  rw [eraseD_single_self]
  rw [show insertD ([] : Dir) (runningName (nm ++ str ".md") wid) c =
    [(runningName (nm ++ str ".md") wid, c)] from rfl]
  rw [eraseD_single_self]

/-- The invariant of the claim-fail trajectory: before exhaustion, round
`k` leaves exactly one pending file whose embedded retry count is `k`. -/
theorem claimFailIter_inv (wid err tsName tsIso : Str) (m : Nat) (nm c0 : Str)
    (hglob : globMD (nm ++ str ".md") = true)
    (hx0 : extractRetryCount c0 = 0)
    (h1 : '<' ∉ tsIso) (h2 : '<' ∉ err)
    (hsz : ∀ k, k < m →
      utf8Size ((lookupD (claimFailIter wid err tsName tsIso m
        ⟨[(nm ++ str ".md", c0)], [], []⟩ k).tasks (nm ++ str ".md")).getD []) ≤
        maxTaskFileSize) :
    ∀ k, k < m → ∃ ck,
      claimFailIter wid err tsName tsIso m ⟨[(nm ++ str ".md", c0)], [], []⟩ k =
        ⟨[(nm ++ str ".md", ck)], [], []⟩ ∧
      extractRetryCount ck = k := by
  intro k
  induction k with
  | zero => intro _; exact ⟨c0, rfl, hx0⟩
  | succ k ih =>
    intro hk
    obtain ⟨ck, hstate, hck⟩ := ih (by omega)
    have hszk : ¬ maxTaskFileSize < utf8Size ck := by
      have := hsz k (by omega)
      rw [hstate] at this
      simp [lookupD] at this
      omega
    refine ⟨failHeaderRetry tsIso err ++ setRetryCount ck (k + 1), ?_,
      extract_requeued ck k tsIso err h1 h2⟩
    show claimFailRound wid err tsName tsIso m
      (claimFailIter wid err tsName tsIso m ⟨[(nm ++ str ".md", c0)], [], []⟩ k) = _
    rw [hstate]
    exact claimFailRound_requeue wid err tsName tsIso [] [] hglob hck hszk (by omega)

/-- C3: `fail(task, error)` computes `new_retries = retries + 1`; below
`max_retries` it requeues the task into the pending directory with the
failure header and updated `<!-- RETRY: n -->` marker and removes the
running file, otherwise it archives it into the failed directory with the
terminal header recording `new_retries/max_retries`.  Consequently a fresh
task (no marker) claimed and failed repeatedly lands in the failed
directory after exactly `max_retries` rounds with retries-exhausted
`max_retries/max_retries` — provided `max_retries ≥ 1`, the timestamps
and error text contain no `<`, and no intermediate content exceeds the
size limit.  (For `max_retries = 0` the claim fails: see the
counterexample.) -/
theorem fail_retry_exhaustion :
    (∀ fs t err tsName tsIso m,
      (t.retries + 1 < m →
        failQ fs t err tsName tsIso m =
          { fs with tasks := (eraseD (insertD fs.tasks (t.name ++ str ".md")
              (failHeaderRetry tsIso err ++ setRetryCount t.content (t.retries + 1)))
              t.path) }) ∧
      (¬ t.retries + 1 < m →
        failQ fs t err tsName tsIso m =
          { fs with tasks := (eraseD fs.tasks t.path),
                    failed := (insertD fs.failed (tsName ++ '_' :: (t.name ++ str ".md"))
                      (failHeaderFinal tsIso err (t.retries + 1) m ++ t.content)) })) ∧
    (∀ nm c0 wid err tsName tsIso m,
      1 ≤ m →
      globMD (nm ++ str ".md") = true →
      extractRetryCount c0 = 0 →
      '<' ∉ tsIso → '<' ∉ err →
      (∀ k, k < m →
        utf8Size ((lookupD (claimFailIter wid err tsName tsIso m
          ⟨[(nm ++ str ".md", c0)], [], []⟩ k).tasks (nm ++ str ".md")).getD []) ≤
          maxTaskFileSize) →
      ∃ cLast,
        claimFailIter wid err tsName tsIso m ⟨[(nm ++ str ".md", c0)], [], []⟩ m =
          ⟨[], [], [(tsName ++ '_' :: (nm ++ str ".md"),
            failHeaderFinal tsIso err m m ++ cLast)]⟩ ∧
        extractRetryCount cLast = m - 1) := by
  constructor
  · intro fs t err tsName tsIso m
    constructor
    · intro h
      unfold failQ
      rw [if_pos h]
    · intro h
      unfold failQ
      rw [if_neg h]
  · intro nm c0 wid err tsName tsIso m hm hglob hx0 h1 h2 hsz
    obtain ⟨cL, hstate, hcL⟩ := claimFailIter_inv wid err tsName tsIso m nm c0
      hglob hx0 h1 h2 hsz (m - 1) (by omega)
    have hszL : ¬ maxTaskFileSize < utf8Size cL := by
      have := hsz (m - 1) (by omega)
      rw [hstate] at this
      simp [lookupD] at this
      omega
    refine ⟨cL, ?_, hcL⟩
    have hstep : claimFailIter wid err tsName tsIso m
        ⟨[(nm ++ str ".md", c0)], [], []⟩ m =
        claimFailRound wid err tsName tsIso m
          (claimFailIter wid err tsName tsIso m ⟨[(nm ++ str ".md", c0)], [], []⟩
            (m - 1)) := by
      rw [show m = (m - 1) + 1 from by omega]
      rw [claimFailIter]
      simp only [Nat.add_sub_cancel]
    rw [hstep, hstate,
      claimFailRound_final wid err tsName tsIso [] [] hglob hcL hszL (by omega)]
    rw [show (m - 1) + 1 = m from by omega]
    rfl

/-- C3 witness: `max_retries = 2`, a fresh task; two rounds later it is in
`failed/` with `Retries exhausted: 2/2`. -/
theorem fail_retry_exhaustion_witness :
    ∃ cLast,
      claimFailIter (str "w0") (str "boom") (str "20240101_120000_000000")
        (str "2024-01-01T12:00:00") 2
        ⟨[(str "001_t" ++ str ".md", str "task")], [], []⟩ 2 =
        ⟨[], [], [(str "20240101_120000_000000" ++ '_' :: (str "001_t" ++ str ".md"),
          failHeaderFinal (str "2024-01-01T12:00:00") (str "boom") 2 2 ++ cLast)]⟩ ∧
      extractRetryCount cLast = 1 :=
  fail_retry_exhaustion.2 (str "001_t") (str "task") (str "w0") (str "boom")
    (str "20240101_120000_000000") (str "2024-01-01T12:00:00") 2
    (by omega) (by decide) (by decide) (by decide) (by decide) (by decide)

/-- C3 counterexample: with `max_retries = 0` (allowed by `config.py`, which
only rejects negative values) a fresh task claimed and failed once lands in
the failed directory with retries-exhausted `1/0` — the recorded exhausted
count `1` is strictly more than `max_retries = 0`, refuting "exactly
max_retries, never fewer or more".  After `N = max_retries = 0` rounds the
task is not in the failed directory at all. -/
theorem fail_retry_exhaustion_zero_rounds :
    claimFailIter (str "w0") (str "boom") (str "TS") (str "ISO") 0
        ⟨[(str "001_t.md", str "task")], [], []⟩ 0 =
      ⟨[(str "001_t.md", str "task")], [], []⟩ ∧
    claimFailIter (str "w0") (str "boom") (str "TS") (str "ISO") 0
        ⟨[(str "001_t.md", str "task")], [], []⟩ 1 =
      ⟨[], [], [(str "TS" ++ '_' :: str "001_t.md",
        failHeaderFinal (str "ISO") (str "boom") 1 0 ++ str "task")]⟩ ∧
    (1 : Nat) ≠ 0 :=
  ⟨rfl, rfl, by decide⟩

/-! ## C7: `retry_failed` and the fail / retry / claim round trip -/

theorem isDigCh_not_nl {c : Char} (h : isDigCh c = true) : isNlCh c = false := by
  simp only [isDigCh, Bool.and_eq_true, decide_eq_true_eq] at h
  by_contra hne
  have ht : isNlCh c = true := by
    cases hh : isNlCh c
    · exact absurd hh hne
    · rfl
  simp only [isNlCh, Bool.or_eq_true, decide_eq_true_eq] at ht
  omega

theorem no_nl_append {a b : Str} (ha : ∀ ch ∈ a, isNlCh ch = false)
    (hb : ∀ ch ∈ b, isNlCh ch = false) : ∀ ch ∈ a ++ b, isNlCh ch = false := by
  intro ch hch
  rcases List.mem_append.1 hch with hm | hm
  · exact ha ch hm
  · exact hb ch hm

theorem splitlinesGo_break (l : Str) (h : ∀ ch ∈ l, isNlCh ch = false) :
    ∀ cur rest, rest ≠ [] →
      splitlinesGo cur (l ++ '\n' :: rest) =
        (cur.reverse ++ l) :: splitlinesGo [] rest := by
  induction l with
  | nil =>
    intro cur rest hr
    cases rest with
    | nil => exact absurd rfl hr
    | cons a as =>
      simp only [List.nil_append, List.append_nil]
      rfl
  | cons x l2 ih =>
    intro cur rest hr
    have hx : isNlCh x = false := h x (List.mem_cons_self x l2)
    have hxr : x ≠ '\r' := by
      intro hc
      rw [hc] at hx
      exact absurd hx (by decide)
    have harm : splitlinesGo cur ((x :: l2) ++ '\n' :: rest) =
        splitlinesGo (x :: cur) (l2 ++ '\n' :: rest) := by
      rw [List.cons_append, splitlinesGo.eq_def]
      split
      · rename_i heq
        exact absurd heq (List.cons_ne_nil _ _)
      · rename_i heq
        rw [List.cons_eq_cons] at heq
        exact absurd heq.1 hxr
      · rename_i c rest2 heq
        rw [List.cons_eq_cons] at heq
        obtain ⟨hc1, hc2⟩ := heq
        subst hc1
        subst hc2
        rw [if_neg (by rw [hx]; exact Bool.false_ne_true)]
    rw [harm, ih (fun ch hch => h ch (List.mem_cons_of_mem x hch)) (x :: cur) rest hr]
    simp

theorem pySplitlines_break (l rest : Str) (h : ∀ ch ∈ l, isNlCh ch = false)
    (hr : rest ≠ []) :
    pySplitlines (l ++ '\n' :: rest) = l :: pySplitlines rest := by
  have h1 : pySplitlines (l ++ '\n' :: rest) = splitlinesGo [] (l ++ '\n' :: rest) := by
    cases l with
    | nil => rfl
    | cons x xs => rfl
  rw [h1, splitlinesGo_break l h [] rest hr]
  cases rest with
  | nil => exact absurd rfl hr
  | cons a as =>
    simp only [List.reverse_nil, List.nil_append]
    rfl

theorem pyStrip_angle (mid : Str) :
    pyStrip ('<' :: (mid ++ ['>'])) = '<' :: (mid ++ ['>']) := by
  have hlt : isWsCh '<' = false := by decide
  have hgt : isWsCh '>' = false := by decide
  unfold pyStrip
  rw [List.dropWhile_cons, hlt]
  simp only [Bool.false_eq_true, if_false]
  have h2 : ('<' :: (mid ++ ['>'])).reverse = '>' :: (mid.reverse ++ ['<']) := by
    simp
  rw [h2, List.dropWhile_cons, hgt]
  simp only [Bool.false_eq_true, if_false]
  rw [← h2, List.reverse_reverse]

theorem lineIsMarker_of (hd w mid : Str) (hmem : hd ∈ markerHeads)
    (hform : hd ++ w = '<' :: (mid ++ ['>'])) :
    lineIsMarker (hd ++ w) = true := by
  unfold lineIsMarker
  rw [List.any_eq_true]
  refine ⟨hd, hmem, ?_⟩
  rw [hform, pyStrip_angle, ← hform, List.isPrefixOf_iff_prefix]
  exact ⟨w, rfl⟩

theorem lineIsMarker_finalHdr (tsIso : Str) :
    lineIsMarker (str "<!-- FINAL FAILURE at " ++ (tsIso ++ str " -->")) = true := by
  have h1 : str "<!-- FINAL FAILURE at " ++ (tsIso ++ str " -->") =
      str "<!-- FINAL FAILURE" ++ (str " at " ++ (tsIso ++ str " -->")) := by
    simp [str, List.append_assoc]
  rw [h1]
  exact lineIsMarker_of _ _ (str "!-- FINAL FAILURE at " ++ (tsIso ++ str " --"))
    (by decide) (by simp [str, List.append_assoc])

theorem lineIsMarker_errorHdr (err : Str) :
    lineIsMarker (str "<!-- Error: " ++ (err ++ str " -->")) = true := by
  have h1 : str "<!-- Error: " ++ (err ++ str " -->") =
      str "<!-- Error:" ++ (str " " ++ (err ++ str " -->")) := by
    simp [str, List.append_assoc]
  rw [h1]
  exact lineIsMarker_of _ _ (str "!-- Error: " ++ (err ++ str " --"))
    (by decide) (by simp [str, List.append_assoc])

theorem lineIsMarker_exhaustedHdr (k m : Nat) :
    lineIsMarker (str "<!-- Retries exhausted: " ++
      (natDigits k ++ ('/' :: (natDigits m ++ str " -->")))) = true := by
  have h1 : str "<!-- Retries exhausted: " ++
      (natDigits k ++ ('/' :: (natDigits m ++ str " -->"))) =
      str "<!-- Retries exhausted" ++ (str ": " ++
        (natDigits k ++ ('/' :: (natDigits m ++ str " -->")))) := by
    simp [str, List.append_assoc]
  rw [h1]
  exact lineIsMarker_of _ _ (str "!-- Retries exhausted: " ++
      (natDigits k ++ ('/' :: (natDigits m ++ str " --"))))
    (by decide) (by simp [str, List.append_assoc])

theorem filter_not_marker {ls : List Str} (h : ∀ l ∈ ls, lineIsMarker l = false) :
    ls.filter (fun l => !lineIsMarker l) = ls := by
  induction ls with
  | nil => rfl
  | cons a as ih =>
    rw [List.filter_cons, h a (List.mem_cons_self a as)]
    simp only [Bool.not_false, if_true]
    rw [ih (fun l hl => h l (List.mem_cons_of_mem a hl))]

/-- Cleaning a terminal-failure file drops exactly the three header lines:
the body lines pass the marker filter untouched and only the final
`"\n".join(...).strip() + "\n"` normalisation is applied to them. -/
theorem cleanTaskContent_finalHdr (tsIso err c : Str) (k m : Nat)
    (hIso : ∀ ch ∈ tsIso, isNlCh ch = false)
    (hErr : ∀ ch ∈ err, isNlCh ch = false)
    (hc : c ≠ [])
    (hbody : ∀ l ∈ pySplitlines c, lineIsMarker l = false) :
    cleanTaskContent (failHeaderFinal tsIso err k m ++ c) =
      pyStrip (joinNL (pySplitlines c)) ++ ['\n'] := by
  have hK : ∀ ch ∈ natDigits k, isNlCh ch = false :=
    fun ch hm => isDigCh_not_nl (natDigits_digits k ch hm)
  have hM : ∀ ch ∈ natDigits m, isNlCh ch = false :=
    fun ch hm => isDigCh_not_nl (natDigits_digits m ch hm)
  have hshape : failHeaderFinal tsIso err k m ++ c =
      (str "<!-- FINAL FAILURE at " ++ (tsIso ++ str " -->")) ++ '\n' ::
      ((str "<!-- Error: " ++ (err ++ str " -->")) ++ '\n' ::
      ((str "<!-- Retries exhausted: " ++
        (natDigits k ++ ('/' :: (natDigits m ++ str " -->")))) ++ '\n' :: c)) := by
    simp [failHeaderFinal, str, List.append_assoc]
  have hL1 : ∀ ch ∈ str "<!-- FINAL FAILURE at " ++ (tsIso ++ str " -->"),
      isNlCh ch = false :=
    no_nl_append (by decide) (no_nl_append hIso (by decide))
  have hL2 : ∀ ch ∈ str "<!-- Error: " ++ (err ++ str " -->"), isNlCh ch = false :=
    no_nl_append (by decide) (no_nl_append hErr (by decide))
  have hL3 : ∀ ch ∈ str "<!-- Retries exhausted: " ++
      (natDigits k ++ ('/' :: (natDigits m ++ str " -->"))), isNlCh ch = false := by
    refine no_nl_append (by decide) (no_nl_append hK ?_)
    intro ch hch
    rcases List.mem_cons.1 hch with hch | hch
    · subst hch
      decide
    · exact no_nl_append hM (by decide) ch hch
  unfold cleanTaskContent
  rw [hshape]
  rw [pySplitlines_break _ _ hL1 (by simp),
      pySplitlines_break _ _ hL2 (by simp),
      pySplitlines_break _ _ hL3 hc]
  simp only [List.filter_cons, lineIsMarker_finalHdr, lineIsMarker_errorHdr,
    lineIsMarker_exhaustedHdr, Bool.not_true, Bool.false_eq_true, if_false]
  rw [filter_not_marker hbody]

theorem exactDigits_prefix (ds : Str) (rest : Str)
    (hd : ∀ ch ∈ ds, isDigCh ch = true) :
    exactDigits ds.length (ds ++ rest) = some rest := by
  induction ds with
  | nil => rfl
  | cons x xs ih =>
    have hx := hd x (List.mem_cons_self x xs)
    rw [List.length_cons, List.cons_append]
    rw [exactDigits, if_pos hx]
    exact ih (fun ch hm => hd ch (List.mem_cons_of_mem x hm))

/-- `_ts_prefix.sub("", ...)` strips exactly a well-formed
`\d{8}_\d{6}_\d{6}_` prefix. -/
theorem tsStripName_shape (d8 e6 f6 rest : Str)
    (h8l : d8.length = 8) (h8d : ∀ ch ∈ d8, isDigCh ch = true)
    (h6al : e6.length = 6) (h6ad : ∀ ch ∈ e6, isDigCh ch = true)
    (h6bl : f6.length = 6) (h6bd : ∀ ch ∈ f6, isDigCh ch = true) :
    tsStripName ((d8 ++ '_' :: (e6 ++ '_' :: f6)) ++ '_' :: rest) = rest := by
  have hsh : (d8 ++ '_' :: (e6 ++ '_' :: f6)) ++ '_' :: rest =
      d8 ++ '_' :: (e6 ++ '_' :: (f6 ++ '_' :: rest)) := by
    simp [List.append_assoc]
  have e1 : exactDigits 8 (d8 ++ '_' :: (e6 ++ '_' :: (f6 ++ '_' :: rest))) =
      some ('_' :: (e6 ++ '_' :: (f6 ++ '_' :: rest))) := by
    rw [← h8l]
    exact exactDigits_prefix d8 _ h8d
  have e2 : exactDigits 6 (e6 ++ '_' :: (f6 ++ '_' :: rest)) =
      some ('_' :: (f6 ++ '_' :: rest)) := by
    rw [← h6al]
    exact exactDigits_prefix e6 _ h6ad
  have e3 : exactDigits 6 (f6 ++ '_' :: rest) = some ('_' :: rest) := by
    rw [← h6bl]
    exact exactDigits_prefix f6 _ h6bd
  rw [hsh]
  unfold tsStripName
  simp only [e1, e2, e3]

theorem globMD_ts (d8 tail : Str) (h8 : d8 ≠ [])
    (h8d : ∀ ch ∈ d8, isDigCh ch = true)
    (hsuf : str ".md" <:+ tail) : globMD (d8 ++ tail) = true := by
  cases d8 with
  | nil => exact absurd rfl h8
  | cons x xs =>
    have hx : x ≠ '.' := by
      intro hc
      have hdx := h8d x (List.mem_cons_self x xs)
      rw [hc] at hdx
      exact absurd hdx (by decide)
    unfold globMD
    rw [List.cons_append, Bool.and_eq_true]
    exact ⟨decide_eq_true (hsuf.trans (List.suffix_append (x :: xs) tail)),
      decide_eq_true hx⟩

/-- C7 (amended): the full round trip.  A pending task with body `c` is
claimed, failed terminally (`retries + 1 ≥ max_retries`) under a
timestamped name, and retried: `retry_failed` strips exactly the three
terminal-header marker lines and the `\d{8}_\d{6}_\d{6}_` filename prefix
and re-queues the task — and the body survives verbatim *provided* it is
already in normal form (`"\n".join(splitlines).strip() + "\n"` fixes it),
none of its lines looks like a marker line, and the timestamps and error
text are newline-free.  A body not of this shape is normalised, not
preserved verbatim: see the counterexample. -/
theorem retry_failed_round_trip (nm c err tsIso d8 e6 f6 wid : Str) (m : Nat)
    (hnm : globMD (nm ++ str ".md") = true)
    (hsz : ¬ maxTaskFileSize < utf8Size c)
    (hterm : ¬ extractRetryCount c + 1 < m)
    (hIso : ∀ ch ∈ tsIso, isNlCh ch = false)
    (hErr : ∀ ch ∈ err, isNlCh ch = false)
    (hbody : ∀ l ∈ pySplitlines c, lineIsMarker l = false)
    (hnorm : pyStrip (joinNL (pySplitlines c)) ++ ['\n'] = c)
    (h8l : d8.length = 8) (h8d : ∀ ch ∈ d8, isDigCh ch = true)
    (h6al : e6.length = 6) (h6ad : ∀ ch ∈ e6, isDigCh ch = true)
    (h6bl : f6.length = 6) (h6bd : ∀ ch ∈ f6, isDigCh ch = true) :
    claimNext ⟨[(nm ++ str ".md", c)], [], []⟩ wid true =
      (some ⟨runningName (nm ++ str ".md") wid, nm, c, extractRetryCount c⟩,
       ⟨[(runningName (nm ++ str ".md") wid, c)], [], []⟩) ∧
    failQ ⟨[(runningName (nm ++ str ".md") wid, c)], [], []⟩
        ⟨runningName (nm ++ str ".md") wid, nm, c, extractRetryCount c⟩
        err (d8 ++ '_' :: (e6 ++ '_' :: f6)) tsIso m =
      ⟨[], [], [((d8 ++ '_' :: (e6 ++ '_' :: f6)) ++ '_' :: (nm ++ str ".md"),
        failHeaderFinal tsIso err (extractRetryCount c + 1) m ++ c)]⟩ ∧
    retryFailed [] [((d8 ++ '_' :: (e6 ++ '_' :: f6)) ++ '_' :: (nm ++ str ".md"),
        failHeaderFinal tsIso err (extractRetryCount c + 1) m ++ c)] none =
      ([(nm ++ str ".md", c)], [], [nm ++ str ".md"]) := by
  have hc : c ≠ [] := by
    rw [← hnorm]
    simp
  refine ⟨?_, ?_, ?_⟩
  · rw [claimNext_eq_some (sortedStrs_singleton_glob c hnm) (by simp [lookupD]) hsz]
    rw [stem_append_md, eraseD_single_self]
    rfl
  · simp only [failQ]
    rw [if_neg hterm, eraseD_single_self]
    rfl
  · have hglobf : globMD ((d8 ++ '_' :: (e6 ++ '_' :: f6)) ++
        '_' :: (nm ++ str ".md")) = true := by
      have hsh : (d8 ++ '_' :: (e6 ++ '_' :: f6)) ++ '_' :: (nm ++ str ".md") =
          d8 ++ ('_' :: (e6 ++ '_' :: (f6 ++ '_' :: (nm ++ str ".md")))) := by
        simp [List.append_assoc]
      rw [hsh]
      refine globMD_ts d8 _ (by intro hn; rw [hn] at h8l; simp at h8l) h8d ?_
      have s0 : str ".md" <:+ nm ++ str ".md" := List.suffix_append nm (str ".md")
      have s1 : nm ++ str ".md" <:+ '_' :: (nm ++ str ".md") :=
        List.suffix_append ['_'] (nm ++ str ".md")
      have s2 : '_' :: (nm ++ str ".md") <:+ f6 ++ '_' :: (nm ++ str ".md") :=
        List.suffix_append f6 _
      have s3 : f6 ++ '_' :: (nm ++ str ".md") <:+
          e6 ++ '_' :: (f6 ++ '_' :: (nm ++ str ".md")) := by
        have := List.suffix_append (e6 ++ ['_']) (f6 ++ '_' :: (nm ++ str ".md"))
        simpa [List.append_assoc] using this
      have s4 : e6 ++ '_' :: (f6 ++ '_' :: (nm ++ str ".md")) <:+
          '_' :: (e6 ++ '_' :: (f6 ++ '_' :: (nm ++ str ".md"))) :=
        List.suffix_append ['_'] _
      exact (((s0.trans s1).trans s2).trans s3).trans s4
    unfold retryFailed retryFailedMatches
    rw [sortedStrs_singleton_glob _ hglobf]
    rw [List.foldl_cons, List.foldl_nil]
    unfold retryFailedStep
    have hlk : lookupD [((d8 ++ '_' :: (e6 ++ '_' :: f6)) ++ '_' :: (nm ++ str ".md"),
        failHeaderFinal tsIso err (extractRetryCount c + 1) m ++ c)]
        ((d8 ++ '_' :: (e6 ++ '_' :: f6)) ++ '_' :: (nm ++ str ".md")) =
      some (failHeaderFinal tsIso err (extractRetryCount c + 1) m ++ c) := by
        simp [lookupD]
    simp only [hlk]
    rw [tsStripName_shape d8 e6 f6 _ h8l h8d h6al h6ad h6bl h6bd]
    rw [cleanTaskContent_finalHdr tsIso err c _ m hIso hErr hc hbody, hnorm]
    rw [eraseD_single_self]
    rfl

/-- C7 witness: body `"task\n"` (already in normal form) survives the
claim / terminal-fail / retry round trip byte-for-byte. -/
theorem retry_failed_round_trip_witness :
    claimNext ⟨[(str "001_t" ++ str ".md", str "task\n")], [], []⟩ (str "w0") true =
      (some ⟨runningName (str "001_t" ++ str ".md") (str "w0"), str "001_t",
        str "task\n", extractRetryCount (str "task\n")⟩,
       ⟨[(runningName (str "001_t" ++ str ".md") (str "w0"), str "task\n")], [], []⟩) ∧
    failQ ⟨[(runningName (str "001_t" ++ str ".md") (str "w0"), str "task\n")], [], []⟩
        ⟨runningName (str "001_t" ++ str ".md") (str "w0"), str "001_t",
          str "task\n", extractRetryCount (str "task\n")⟩
        (str "boom") (str "20240101" ++ '_' :: (str "120000" ++ '_' :: str "000000"))
        (str "ISO") 1 =
      ⟨[], [], [((str "20240101" ++ '_' :: (str "120000" ++ '_' :: str "000000")) ++
          '_' :: (str "001_t" ++ str ".md"),
        failHeaderFinal (str "ISO") (str "boom")
          (extractRetryCount (str "task\n") + 1) 1 ++ str "task\n")]⟩ ∧
    retryFailed []
        [((str "20240101" ++ '_' :: (str "120000" ++ '_' :: str "000000")) ++
          '_' :: (str "001_t" ++ str ".md"),
          failHeaderFinal (str "ISO") (str "boom")
            (extractRetryCount (str "task\n") + 1) 1 ++ str "task\n")] none =
      ([(str "001_t" ++ str ".md", str "task\n")], [], [str "001_t" ++ str ".md"]) :=
  retry_failed_round_trip (str "001_t") (str "task\n") (str "boom") (str "ISO")
    (str "20240101") (str "120000") (str "000000") (str "w0") 1
    (by decide) (by decide) (by decide) (by decide) (by decide) (by decide)
    (by decide) (by decide) (by decide) (by decide) (by decide) (by decide) (by decide)

/-- C7 counterexample: the round trip is *not* verbatim in general.  The
body `"task"` (no trailing newline) goes through claim, terminal fail and
`retry_failed`, and comes back as `"task\n"` — the
`"\n".join(...).strip() + "\n"` normalisation in task.py line 181 appends
a newline, so the re-claimed content differs from the original body. -/
theorem retry_failed_not_verbatim :
    claimNext ⟨[(str "001_t.md", str "task")], [], []⟩ (str "w0") true =
      (some ⟨str "001_t.md.running.w0", str "001_t", str "task", 0⟩,
       ⟨[(str "001_t.md.running.w0", str "task")], [], []⟩) ∧
    failQ ⟨[(str "001_t.md.running.w0", str "task")], [], []⟩
        ⟨str "001_t.md.running.w0", str "001_t", str "task", 0⟩
        (str "boom") (str "20240101_120000_000000") (str "ISO") 1 =
      ⟨[], [], [(str "20240101_120000_000000_001_t.md",
        failHeaderFinal (str "ISO") (str "boom") 1 1 ++ str "task")]⟩ ∧
    retryFailed [] [(str "20240101_120000_000000_001_t.md",
        failHeaderFinal (str "ISO") (str "boom") 1 1 ++ str "task")] none =
      ([(str "001_t.md", str "task\n")], [], [str "001_t.md"]) ∧
    (claimNext ⟨[(str "001_t.md", str "task\n")], [], []⟩ (str "w0") true).1 =
      some ⟨str "001_t.md.running.w0", str "001_t", str "task\n", 0⟩ ∧
    str "task\n" ≠ str "task" :=
  ⟨rfl, rfl, rfl, rfl, by decide⟩

/-! ## C8: the stream-json parser -/

theorem contentBlocks_ok {c : JVal} (h : contentOkB c = true) :
    contentBlocks c = .ok (contentListSpec c) := by
  cases c with
  | str s => rfl
  | arr xs => rfl
  | obj ofs => rfl
  | num n => simp [contentOkB] at h
  | bool b => simp [contentOkB] at h
  | null => simp [contentOkB] at h

theorem textBlocksSpec_cons_obj (bfs : List (Str × JVal)) (bs : List JVal) :
    textBlocksSpec (JVal.obj bfs :: bs) =
      (if jvalBeq ((jLookup bfs (str "type")).getD (JVal.str []))
          (JVal.str (str "text")) then
        match jLookup bfs (str "text") with
        | some tv => tv :: textBlocksSpec bs
        | none => textBlocksSpec bs
      else textBlocksSpec bs) := by
  unfold textBlocksSpec
  rw [List.filterMap_cons]
  by_cases ht : jvalBeq ((jLookup bfs (str "type")).getD (JVal.str []))
      (JVal.str (str "text")) = true
  · rw [if_pos ht]
    cases hlk : jLookup bfs (str "text") with
    | none => simp only [hlk, if_pos ht]
    | some tv => simp only [hlk, if_pos ht]
  · rw [if_neg ht]
    simp only [if_neg ht]

theorem lineOkB_obj {fs : List (Str × JVal)}
    (h : lineOkB (SLine.json (JVal.obj fs)) = true) :
    (if jvalBeq ((jLookup fs (str "type")).getD (JVal.str []))
        (JVal.str (str "assistant")) && (jLookup fs (str "message")).isSome then
      match (jLookup fs (str "message")).getD JVal.null with
      | .obj mfs => contentOkB ((jLookup mfs (str "content")).getD (JVal.arr []))
      | _ => true
    else true) = true ∧
    (msgBlocksSpec fs).all blockTextOkB = true ∧
    (lineToolsSpec (SLine.json (JVal.obj fs))).all toolOkB = true := by
  rw [lineOkB] at h
  rw [Bool.and_eq_true, Bool.and_eq_true] at h
  exact ⟨h.1.1, h.1.2, h.2⟩

theorem collectTexts_ok (blocks : List JVal) (h : blocks.all blockTextOkB = true) :
    collectTexts blocks = .ok (textBlocksSpec blocks) := by
  induction blocks with
  | nil => rfl
  | cons b bs ih =>
    rw [List.all_cons, Bool.and_eq_true] at h
    obtain ⟨hb, hbs⟩ := h
    have ihr := ih hbs
    cases b with
    | obj bfs =>
      rw [textBlocksSpec_cons_obj]
      simp only [collectTexts]
      by_cases ht : jvalBeq ((jLookup bfs (str "type")).getD (JVal.str []))
          (JVal.str (str "text")) = true
      · rw [if_pos ht, if_pos ht]
        simp only [blockTextOkB, ht, Bool.not_true, Bool.false_or] at hb
        obtain ⟨lv, hlk⟩ : ∃ lv, jLookup bfs (str "text") = lv := ⟨_, rfl⟩
        rw [hlk] at hb
        cases lv with
        | none => simp at hb
        | some tv =>
          cases tv with
          | str s =>
            simp only [hlk, ihr]
          | num n => simp at hb
          | bool x => simp at hb
          | null => simp at hb
          | arr xs => simp at hb
          | obj ofs => simp at hb
      · rw [if_neg ht, if_neg ht]
        exact ihr
    | str s => exact ihr
    | num n => exact ihr
    | bool x => exact ihr
    | null => exact ihr
    | arr xs => exact ihr

theorem assistantTexts_ok {fs : List (Str × JVal)}
    (hcontent : (if jvalBeq ((jLookup fs (str "type")).getD (JVal.str []))
        (JVal.str (str "assistant")) && (jLookup fs (str "message")).isSome then
      match (jLookup fs (str "message")).getD JVal.null with
      | .obj mfs => contentOkB ((jLookup mfs (str "content")).getD (JVal.arr []))
      | _ => true
    else true) = true)
    (htext : (msgBlocksSpec fs).all blockTextOkB = true) :
    assistantTexts fs = .ok (textBlocksSpec (msgBlocksSpec fs)) := by
  unfold msgBlocksSpec at htext ⊢
  unfold assistantTexts
  by_cases hg : (jvalBeq ((jLookup fs (str "type")).getD (JVal.str []))
      (JVal.str (str "assistant")) && (jLookup fs (str "message")).isSome) = true
  · rw [if_pos hg] at hcontent htext
    rw [if_pos hg, if_pos hg]
    obtain ⟨mv, hmv⟩ : ∃ mv, (jLookup fs (str "message")).getD JVal.null = mv := ⟨_, rfl⟩
    rw [hmv] at hcontent htext
    simp only [hmv]
    cases mv with
    | obj mfs =>
      simp only [contentBlocks_ok hcontent]
      exact collectTexts_ok _ htext
    | str s => rfl
    | num n => rfl
    | bool x => rfl
    | null => rfl
    | arr xs => rfl
  · rw [if_neg hg, if_neg hg]
    rfl

theorem eventToolCalls_ok {fs : List (Str × JVal)}
    (hcontent : (if jvalBeq ((jLookup fs (str "type")).getD (JVal.str []))
        (JVal.str (str "assistant")) && (jLookup fs (str "message")).isSome then
      match (jLookup fs (str "message")).getD JVal.null with
      | .obj mfs => contentOkB ((jLookup mfs (str "content")).getD (JVal.arr []))
      | _ => true
    else true) = true) :
    eventToolCalls fs = .ok (lineToolsSpec (SLine.json (JVal.obj fs))) := by
  unfold eventToolCalls
  simp only [lineToolsSpec]
  by_cases htu : jvalBeq ((jLookup fs (str "type")).getD (JVal.str []))
      (JVal.str (str "tool_use")) = true
  · rw [if_pos htu, if_pos htu]
  · rw [if_neg htu, if_neg htu]
    unfold msgBlocksSpec
    by_cases hg : (jvalBeq ((jLookup fs (str "type")).getD (JVal.str []))
        (JVal.str (str "assistant")) && (jLookup fs (str "message")).isSome) = true
    · rw [if_pos hg] at hcontent
      rw [if_pos hg, if_pos hg]
      obtain ⟨mv, hmv⟩ : ∃ mv, (jLookup fs (str "message")).getD JVal.null = mv := ⟨_, rfl⟩
      rw [hmv] at hcontent
      simp only [hmv]
      cases mv with
      | obj mfs => simp only [contentBlocks_ok hcontent]
      | str s => rfl
      | num n => rfl
      | bool x => rfl
      | null => rfl
      | arr xs => rfl
    · rw [if_neg hg, if_neg hg]
      rfl

theorem processLine_ok {l : SLine} (hok : lineOkB l = true) (p0 t0 : List JVal) :
    processLine (p0, t0) l = .ok (p0 ++ lineTextsSpec l, t0 ++ lineToolsSpec l) := by
  cases l with
  | text s =>
    simp only [processLine, lineTextsSpec, lineToolsSpec]
    by_cases hs : pyStrip s = []
    · rw [if_pos hs, if_pos hs]
      simp
    · rw [if_neg hs, if_neg hs]
      simp
  | json v =>
    cases v with
    | obj fs =>
      obtain ⟨hcontent, htext, htool⟩ := lineOkB_obj hok
      simp only [processLine, assistantTexts_ok hcontent htext, eventToolCalls_ok hcontent]
      simp only [lineTextsSpec, List.append_assoc]
    | str s => simp [lineOkB] at hok
    | num n => simp [lineOkB] at hok
    | bool x => simp [lineOkB] at hok
    | null => simp [lineOkB] at hok
    | arr xs => simp [lineOkB] at hok

theorem foldlM_processLine (lines : List SLine) :
    (∀ l ∈ lines, lineOkB l = true) → ∀ p0 t0,
      lines.foldlM processLine (p0, t0) =
        Except.ok (p0 ++ (lines.map lineTextsSpec).flatten,
                   t0 ++ (lines.map lineToolsSpec).flatten) := by
  induction lines with
  | nil =>
    intro _ p0 t0
    simp only [List.foldlM_nil, List.map_nil, List.flatten_nil, List.append_nil]
    rfl
  | cons l ls ih =>
    intro hok p0 t0
    rw [List.foldlM_cons, processLine_ok (hok l (List.mem_cons_self l ls)) p0 t0]
    show ls.foldlM processLine (p0 ++ lineTextsSpec l, t0 ++ lineToolsSpec l) = _
    rw [ih (fun x hx => hok x (List.mem_cons_of_mem l hx))]
    simp [List.append_assoc]

theorem lineToolsSpec_ok {l : SLine} (hok : lineOkB l = true) :
    ∀ tc ∈ lineToolsSpec l, toolOkB tc = true := by
  cases l with
  | text s =>
    intro tc htc
    simp [lineToolsSpec] at htc
  | json v =>
    cases v with
    | obj fs =>
      obtain ⟨-, -, htool⟩ := lineOkB_obj hok
      intro tc htc
      exact List.all_eq_true.1 htool tc htc
    | str s => simp [lineOkB] at hok
    | num n => simp [lineOkB] at hok
    | bool x => simp [lineOkB] at hok
    | null => simp [lineOkB] at hok
    | arr xs => simp [lineOkB] at hok

theorem lineTextsSpec_strings {l : SLine} (hok : lineOkB l = true) :
    ∀ p ∈ lineTextsSpec l, ∃ s, p = JVal.str s := by
  cases l with
  | text s =>
    intro p hp
    simp only [lineTextsSpec] at hp
    by_cases hs : pyStrip s = []
    · rw [if_pos hs] at hp
      simp at hp
    · rw [if_neg hs] at hp
      simp at hp
      exact ⟨pyStrip s, hp⟩
  | json v =>
    cases v with
    | obj fs =>
      obtain ⟨-, htext, -⟩ := lineOkB_obj hok
      intro p hp
      simp only [lineTextsSpec] at hp
      rcases List.mem_append.1 hp with hp | hp
      · unfold textBlocksSpec at hp
        rw [List.mem_filterMap] at hp
        obtain ⟨b, hbmem, hfb⟩ := hp
        have hbok : blockTextOkB b = true := List.all_eq_true.1 htext b hbmem
        cases b with
        | obj bfs =>
          by_cases ht : jvalBeq ((jLookup bfs (str "type")).getD (JVal.str []))
              (JVal.str (str "text")) = true
          · simp only [if_pos ht] at hfb
            simp only [blockTextOkB, ht, Bool.not_true, Bool.false_or] at hbok
            rw [hfb] at hbok
            cases p with
            | str s => exact ⟨s, rfl⟩
            | num n => simp at hbok
            | bool x => simp at hbok
            | null => simp at hbok
            | arr xs => simp at hbok
            | obj ofs => simp at hbok
          · simp only [if_neg ht] at hfb
            cases hfb
        | str s => simp at hfb
        | num n => simp at hfb
        | bool x => simp at hfb
        | null => simp at hfb
        | arr xs => simp at hfb
      · unfold resultParts at hp
        by_cases hr : jvalBeq ((jLookup fs (str "type")).getD (JVal.str []))
            (JVal.str (str "result")) = true
        · rw [if_pos hr] at hp
          obtain ⟨rv, hrv⟩ : ∃ rv, (jLookup fs (str "result")).getD (JVal.str []) = rv :=
            ⟨_, rfl⟩
          rw [hrv] at hp
          cases rv with
          | str s =>
            simp at hp
            exact ⟨s, hp⟩
          | num n => simp at hp
          | bool x => simp at hp
          | null => simp at hp
          | arr xs => simp at hp
          | obj ofs => simp at hp
        · rw [if_neg hr] at hp
          simp at hp
    | str s => simp [lineOkB] at hok
    | num n => simp [lineOkB] at hok
    | bool x => simp [lineOkB] at hok
    | null => simp [lineOkB] at hok
    | arr xs => simp [lineOkB] at hok

theorem joined_parts_strings (lines : List SLine)
    (hok : ∀ l ∈ lines, lineOkB l = true) :
    ∀ p ∈ (lines.map lineTextsSpec).flatten, ∃ s, p = JVal.str s := by
  intro p hp
  rw [List.mem_flatten] at hp
  obtain ⟨chunk, hcm, hpc⟩ := hp
  rw [List.mem_map] at hcm
  obtain ⟨l, hl, hchunk⟩ := hcm
  subst hchunk
  exact lineTextsSpec_strings (hok l hl) p hpc

theorem joined_tools_ok (lines : List SLine)
    (hok : ∀ l ∈ lines, lineOkB l = true) :
    ∀ tc ∈ (lines.map lineToolsSpec).flatten, toolOkB tc = true := by
  intro tc htc
  rw [List.mem_flatten] at htc
  obtain ⟨chunk, hcm, hpc⟩ := htc
  rw [List.mem_map] at hcm
  obtain ⟨l, hl, hchunk⟩ := hcm
  subst hchunk
  exact lineToolsSpec_ok (hok l hl) tc hpc

theorem partsStrings_ok (parts : List JVal)
    (h : ∀ p ∈ parts, ∃ s, p = JVal.str s) :
    partsStrings parts = .ok (parts.map jstrVal) := by
  induction parts with
  | nil => rfl
  | cons p ps ih =>
    obtain ⟨s, hs⟩ := h p (List.mem_cons_self p ps)
    subst hs
    show (match partsStrings ps with
          | .error e => Except.error e
          | .ok r => Except.ok (s :: r)) = _
    rw [ih (fun q hq => h q (List.mem_cons_of_mem _ hq))]
    rfl

theorem filesStep_ok {tc : JVal} (h : toolOkB tc = true) (acc : List JVal) :
    filesStep acc tc = .ok (match writeFilePathSpec tc with
      | none => acc
      | some fp => if jvalMem fp acc then acc else acc ++ [fp]) := by
  cases tc with
  | obj fs =>
    simp only [filesStep, writeFilePathSpec]
    by_cases hn : jvalMem ((jLookup fs (str "name")).getD (JVal.str [])) writeNames = true
    · rw [if_pos hn, if_pos hn]
      simp only [toolOkB, hn, Bool.not_true, Bool.false_or] at h
      obtain ⟨iv, hiv⟩ : ∃ iv, (jLookup fs (str "input")).getD (JVal.obj []) = iv :=
        ⟨_, rfl⟩
      rw [hiv] at h
      simp only [hiv]
      cases iv with
      | obj ifs =>
        simp only [filePathIn]
        by_cases hfp : (jLookup ifs (str "file_path")).isSome = true
        · rw [if_pos hfp]
          obtain ⟨fp, hfpv⟩ := Option.isSome_iff_exists.1 hfp
          simp only [filePathGet, hfpv]
          by_cases hmem : jvalMem fp acc = true
          · rw [if_pos hmem, if_pos hmem]
          · rw [if_neg hmem, if_neg hmem]
        · rw [if_neg hfp]
          rw [Option.not_isSome_iff_eq_none] at hfp
          simp only [hfp]
      | str s => simp at h
      | num n => simp at h
      | bool x => simp at h
      | null => simp at h
      | arr xs => simp at h
    · rw [if_neg hn, if_neg hn]
  | str s => rfl
  | num n => rfl
  | bool x => rfl
  | null => rfl
  | arr xs => rfl

theorem foldlM_filesStep (tools : List JVal) :
    (∀ tc ∈ tools, toolOkB tc = true) → ∀ acc,
      tools.foldlM filesStep acc =
        Except.ok (dedupAcc acc (tools.filterMap writeFilePathSpec)) := by
  induction tools with
  | nil =>
    intro _ acc
    simp only [List.foldlM_nil, List.filterMap_nil, dedupAcc]
    rfl
  | cons tc ts ih =>
    intro hok acc
    have ihr := ih (fun x hx => hok x (List.mem_cons_of_mem tc hx))
    rw [List.foldlM_cons, filesStep_ok (hok tc (List.mem_cons_self tc ts)) acc,
      List.filterMap_cons]
    obtain ⟨w, hw⟩ : ∃ w, writeFilePathSpec tc = w := ⟨_, rfl⟩
    simp only [hw]
    cases w with
    | none =>
      show ts.foldlM filesStep acc = _
      exact ihr acc
    | some fp =>
      simp only [dedupAcc]
      by_cases hmem : jvalMem fp acc = true
      · rw [if_pos hmem, if_pos hmem]
        show ts.foldlM filesStep acc = _
        exact ihr acc
      · rw [if_neg hmem, if_neg hmem]
        show ts.foldlM filesStep (acc ++ [fp]) = _
        exact ihr (acc ++ [fp])

/-- C8 (amended): each stdout line is decoded independently; a non-JSON
line is appended (stripped) to the plain-text output; and on a
*well-formed* stream — every decoded line a JSON object, assistant
message content iterable, text blocks carrying string texts, and
Write/Edit-style tool inputs dicts — the parse succeeds, with the output
the `"\n".join` of the text-line / assistant-text-block / string-result
parts in order, the tool calls the `tool_use` events plus assistant
`tool_use` blocks in order, and the changed files exactly the `file_path`
inputs of the Write/Edit-style tool calls, de-duplicated in first-seen
order.  Without the well-formedness conditions the parse *can* fail as a
whole: see the counterexample. -/
theorem parse_stream_json_behavior (lines : List SLine)
    (hok : ∀ l ∈ lines, lineOkB l = true) :
    parseStreamJson lines =
      .ok { success := true,
            output := joinNL (((lines.map lineTextsSpec).flatten).map jstrVal),
            error := [],
            filesChanged := dedupKeepFirst
              (((lines.map lineToolsSpec).flatten).filterMap writeFilePathSpec),
            toolCalls := (lines.map lineToolsSpec).flatten } := by
  have h1 := foldlM_processLine lines hok [] []
  have h2 := foldlM_filesStep ((lines.map lineToolsSpec).flatten)
    (joined_tools_ok lines hok) []
  have h3 := partsStrings_ok ((lines.map lineTextsSpec).flatten)
    (joined_parts_strings lines hok)
  simp only [List.nil_append] at h1
  unfold parseStreamJson
  simp only [h1, h2, h3]
  rfl

/-- C8 witness: a four-line stream — a plain-text line, an assistant
event with a text block and a `Write` tool block, a `tool_use` event
(`Edit` on the same file), and a string result — parses to the joined
output, both tool calls, and the de-duplicated changed-file list. -/
theorem parse_stream_json_behavior_witness :
    parseStreamJson
      [SLine.text (str " hello "),
       SLine.json (JVal.obj [(str "type", JVal.str (str "assistant")),
         (str "message", JVal.obj [(str "content", JVal.arr
           [JVal.obj [(str "type", JVal.str (str "text")),
              (str "text", JVal.str (str "hi"))],
            JVal.obj [(str "type", JVal.str (str "tool_use")),
              (str "name", JVal.str (str "Write")),
              (str "input", JVal.obj [(str "file_path", JVal.str (str "a.py"))])]])])]),
       SLine.json (JVal.obj [(str "type", JVal.str (str "tool_use")),
         (str "name", JVal.str (str "Edit")),
         (str "input", JVal.obj [(str "file_path", JVal.str (str "a.py"))])]),
       SLine.json (JVal.obj [(str "type", JVal.str (str "result")),
         (str "result", JVal.str (str "done"))])] =
      .ok { success := true, output := str "hello\nhi\ndone", error := [],
            filesChanged := [JVal.str (str "a.py")],
            toolCalls :=
              [JVal.obj [(str "type", JVal.str (str "tool_use")),
                 (str "name", JVal.str (str "Write")),
                 (str "input", JVal.obj [(str "file_path", JVal.str (str "a.py"))])],
               JVal.obj [(str "type", JVal.str (str "tool_use")),
                 (str "name", JVal.str (str "Edit")),
                 (str "input", JVal.obj [(str "file_path", JVal.str (str "a.py"))])]] } :=
  (parse_stream_json_behavior
      [SLine.text (str " hello "),
       SLine.json (JVal.obj [(str "type", JVal.str (str "assistant")),
         (str "message", JVal.obj [(str "content", JVal.arr
           [JVal.obj [(str "type", JVal.str (str "text")),
              (str "text", JVal.str (str "hi"))],
            JVal.obj [(str "type", JVal.str (str "tool_use")),
              (str "name", JVal.str (str "Write")),
              (str "input", JVal.obj [(str "file_path", JVal.str (str "a.py"))])]])])]),
       SLine.json (JVal.obj [(str "type", JVal.str (str "tool_use")),
         (str "name", JVal.str (str "Edit")),
         (str "input", JVal.obj [(str "file_path", JVal.str (str "a.py"))])]),
       SLine.json (JVal.obj [(str "type", JVal.str (str "result")),
         (str "result", JVal.str (str "done"))])]
      (by decide)).trans (by rfl)

/-- C8 counterexample: the parse *can* fail as a whole, refuting "never
fails as a whole".  `5` is valid JSON, so the line decodes, but
`event.get("type", "")` on an `int` raises `AttributeError`
(manager.py line 68) and `_parse_stream_json` propagates it; likewise an
assistant event whose text block lacks the `"text"` key raises `KeyError`
at `block["text"]` (line 76). -/
theorem parse_stream_json_crashes :
    parseStreamJson [SLine.json (JVal.num 5)] = .error PyErr.attributeError ∧
    parseStreamJson [SLine.json (JVal.obj [(str "type", JVal.str (str "assistant")),
      (str "message", JVal.obj [(str "content",
        JVal.arr [JVal.obj [(str "type", JVal.str (str "text"))]])])])] =
      .error PyErr.keyError :=
  ⟨rfl, rfl⟩

/-- C2: when the shared shutdown signal is set at the moment a task's
execution returns, `_execute_task` neither completes nor fails the task:
it releases it, so the running file is renamed back to its pending name
with its content unchanged, and the done/failed directories are
untouched.  (`TaskQueue.release` itself is modelled from the spec; see
`releaseQ`.) -/
theorem shutdown_releases_task (fs : FSt) (t : TaskR) (success : Bool)
    (err tsName tsIso : Str) (m : Nat)
    (hrun : lookupD fs.tasks t.path = some t.content)
    (hne : t.path ≠ t.name ++ str ".md") :
    (executeOutcome fs true success err t tsName tsIso m).2 = TaskOutcome.released ∧
    lookupD (executeOutcome fs true success err t tsName tsIso m).1.tasks
      (t.name ++ str ".md") = some t.content ∧
    lookupD (executeOutcome fs true success err t tsName tsIso m).1.tasks t.path = none ∧
    (executeOutcome fs true success err t tsName tsIso m).1.done = fs.done ∧
    (executeOutcome fs true success err t tsName tsIso m).1.failed = fs.failed := by
  have hrel : executeOutcome fs true success err t tsName tsIso m =
      (releaseQ fs t, TaskOutcome.released) := rfl
  rw [hrel]
  have hq : releaseQ fs t =
      { fs with tasks := insertD (eraseD fs.tasks t.path) (t.name ++ str ".md") t.content } := by
    unfold releaseQ renameD
    rw [hrun]
  rw [hq]
  refine ⟨rfl, ?_, ?_, rfl, rfl⟩
  · exact lookupD_insert_self _ _ _
  · rw [lookupD_insert_ne _ _ _ _ hne, lookupD_erase_self]

/-- Witness for C2 at a concrete claimed task. -/
theorem shutdown_releases_task_witness :
    lookupD [(str "001_a.md.running.w0", str "task a")] (str "001_a.md.running.w0") =
      some (str "task a") ∧
    (executeOutcome ⟨[(str "001_a.md.running.w0", str "task a")], [], []⟩ true false
      (str "boom") ⟨str "001_a.md.running.w0", str "001_a", str "task a", 0⟩
      (str "TS") (str "ISO") 2).2 = TaskOutcome.released ∧
    lookupD (executeOutcome ⟨[(str "001_a.md.running.w0", str "task a")], [], []⟩ true false
      (str "boom") ⟨str "001_a.md.running.w0", str "001_a", str "task a", 0⟩
      (str "TS") (str "ISO") 2).1.tasks
      (str "001_a.md") = some (str "task a") := by
  have h := shutdown_releases_task ⟨[(str "001_a.md.running.w0", str "task a")], [], []⟩
    ⟨str "001_a.md.running.w0", str "001_a", str "task a", 0⟩ false
    (str "boom") (str "TS") (str "ISO") 2 (by decide) (by decide)
  exact ⟨by decide, h.1, h.2.1⟩

end Vibe
